import Mathlib

/-
Verification of the SSOT Markdown linter suite (check_links.py,
check_references.py, check_section_order.py, src/checks/check_fences.py,
src/checks/check_last_updated.py, src/checks/check_toc.py).

Shallow embedding conventions:
- A document's raw text is a `List Char`; a line (as produced by Python
  `str.splitlines()`) contains no newline characters, and a document that a
  checker iterates line-by-line is a `List (List Char)`.
- Python regexes are translated into executable character-list scanners.
  Character classes are modelled at the ASCII fragment Python uses for the
  documents in scope: regex `\s` is the six ASCII whitespace characters,
  regex `\w` is ASCII alphanumerics plus underscore, and `str.lower()` is
  ASCII lowercasing.  (Python's classes additionally cover non-ASCII
  codepoints; no claim distinguishes those.)
- `re.findall`/`re.search` backtracking was traced by hand for each pattern;
  comments at each definition record the cases where greedy matching with
  backtracking collapses to the straight-line scan given here.
- Violation messages are modelled as inductive values carrying exactly the
  data interpolated into the corresponding Python f-string.
-/

def chars (s : String) : List Char := s.data

/-- Python regex `\s` (ASCII fragment): the characters str.splitlines and
the linters' whitespace tests treat as whitespace. -/
def isPySpace (c : Char) : Bool :=
  c = ' ' || c = '\t' || c = '\n' || c = '\r' || c = '\x0b' || c = '\x0c'

/-- Python regex `\w` (ASCII fragment): alphanumerics and underscore. -/
def isWordChar (c : Char) : Bool :=
  c.isAlphanum || c = '_'

/-- ASCII lowercasing, the fragment of Python `str.lower()` exercised here. -/
def lowerChar (c : Char) : Char :=
  if 65 ≤ c.toNat ∧ c.toNat ≤ 90 then Char.ofNat (c.toNat + 32) else c

/-- Test that `l` begins with `p` (Python `str.startswith`). -/
def beginsWith (p l : List Char) : Bool :=
  decide (l.take p.length = p)

/-- Drop trailing characters satisfying `p` (the right half of Python
`str.strip`), implemented structurally. -/
def dropTrailing (p : Char → Bool) : List Char → List Char
  | [] => []
  | c :: r =>
    let r' := dropTrailing p r
    if r' = [] ∧ p c then [] else c :: r'

/-- Python `str.strip()` (no argument): trim whitespace at both ends. -/
def pyStrip (l : List Char) : List Char :=
  dropTrailing isPySpace (l.dropWhile isPySpace)

/-- Python `str.strip("-")`. -/
def stripDashes (l : List Char) : List Char :=
  dropTrailing (fun c => c = '-') (l.dropWhile (fun c => c = '-'))

/-- Python `str.splitlines()` restricted to `'\n'` separators (the only line
separator occurring in the texts in scope): `""` gives `[]`, a trailing
newline does not produce a final empty line. -/
def splitLinesAux (cur : List Char) : List Char → List (List Char)
  | [] => if cur = [] then [] else [cur.reverse]
  | c :: rest =>
    if c = '\n' then cur.reverse :: splitLinesAux [] rest
    else splitLinesAux (c :: cur) rest

def splitLines (l : List Char) : List (List Char) :=
  splitLinesAux [] l

/-- Python `"\n".join(lines)` — the inverse used when a checker re-joins stripped
lines before running a regex over the whole text. -/
def joinLines : List (List Char) → List Char
  | [] => []
  | [l] => l
  | l :: ls => l ++ '\n' :: joinLines ls

/-- First occurrence split: `some (before, after)` where `after` starts just
past the first occurrence of the (nonempty) pattern `pat`. -/
def splitFirstSub (pat : List Char) : List Char → Option (List Char × List Char)
  | [] => none
  | c :: rest =>
    if beginsWith pat (c :: rest) then some ([], (c :: rest).drop pat.length)
    else (splitFirstSub pat rest).map (fun pr => (c :: pr.1, pr.2))

/-- Python `pat in text` for a nonempty pattern. -/
def containsSub (pat text : List Char) : Bool :=
  (splitFirstSub pat text).isSome

/- ------------------------------------------------------------------ -/
/- Fence tracker, shared verbatim by check_links.py, check_references.py,
   check_section_order.py, check_fences.py and check_toc.py:
     FENCE_RE = re.compile(r"^(`{3,}|~{3,})")                             -/
/- ------------------------------------------------------------------ -/

/-- Model of `FENCE_RE.match(line)`: the regex alternation anchored at the line start
matches a run of three-or-more backticks, else a run of three-or-more tildes,
returning the (maximal) run as the marker. -/
def fenceMatch (line : List Char) : Option (List Char) :=
  let bt := line.takeWhile (fun c => c = '`')
  if 3 ≤ bt.length then some bt
  else
    let td := line.takeWhile (fun c => c = '~')
    if 3 ≤ td.length then some td else none

/-- Model of `marker.startswith(fence_marker[:1]) and len(marker) >= len(fence_marker)`. -/
def closesFence (marker fm : List Char) : Bool :=
  beginsWith (fm.take 1) marker && decide (fm.length ≤ marker.length)

/-- The fence state threaded through every checker's per-line loop:
`in_fence` plus the `fence_marker` string of the currently open fence. -/
structure FenceSt where
  in_fence : Bool
  fence_marker : List Char
deriving DecidableEq

def fenceInit : FenceSt := ⟨false, []⟩

/-- One line's effect on the fence state — the shared transition of all five
checkers' loops (open when closed, close when the marker matches in class and
length, otherwise unchanged). -/
def fenceStep (st : FenceSt) (line : List Char) : FenceSt :=
  match fenceMatch line with
  | none => st
  | some marker =>
    if st.in_fence = false then ⟨true, marker⟩
    else if closesFence marker st.fence_marker then ⟨false, []⟩
    else st

def stateAfter (st : FenceSt) (lines : List (List Char)) : FenceSt :=
  lines.foldl fenceStep st

/- ------------------------------------------------------------------ -/
/- check_references.py: strip_code (textually identical to
   check_links.py: strip_fenced_code)                                  -/
/- ------------------------------------------------------------------ -/

/-- Model of `line.startswith("    ") or line.startswith("\t")`. -/
def isIndent (line : List Char) : Bool :=
  beginsWith (chars "    ") line || beginsWith (chars "\t") line

def strip_code_aux (st : FenceSt) : List (List Char) → List (List Char)
  | [] => []
  | line :: rest =>
    match fenceMatch line with
    | some marker =>
      if st.in_fence = false then strip_code_aux ⟨true, marker⟩ rest
      else if closesFence marker st.fence_marker then strip_code_aux ⟨false, []⟩ rest
      else strip_code_aux st rest
    | none =>
      if st.in_fence then strip_code_aux st rest
      else if isIndent line then strip_code_aux st rest
      else line :: strip_code_aux st rest

/-- Model of `check_references.strip_code`, on a document given as its lines. -/
def strip_code (lines : List (List Char)) : List (List Char) :=
  strip_code_aux fenceInit lines

/-- Model of `check_links.strip_fenced_code` — its body is character-for-character the
same loop as `check_references.strip_code`. -/
def strip_fenced_code (lines : List (List Char)) : List (List Char) :=
  strip_code lines

/- ------------------------------------------------------------------ -/
/- check_toc.py: HEADING_RE, extract_headings, slugify, build_anchor_set -/
/- ------------------------------------------------------------------ -/

/-- Model of `HEADING_RE = ^(#{1,6})\s+(.+?)\s*$` applied with `.match(line)`, giving
`(level, group(2).strip())`.  Backtracking analysis: the pattern matches
exactly when the maximal leading `#`-run has length 1..6 and the remainder
begins with a whitespace character and has at least two characters; the lazy
group followed by the trailing `\s*$` makes `group(2).strip()` equal to the
remainder stripped of whitespace on both sides. -/
def headingMatch (line : List Char) : Option (Nat × List Char) :=
  let hs := line.takeWhile (fun c => c = '#')
  if 1 ≤ hs.length ∧ hs.length ≤ 6 then
    match line.drop hs.length with
    | c :: d :: rest =>
      if isPySpace c then some (hs.length, pyStrip (c :: d :: rest)) else none
    | _ => none
  else none

def extract_headings_aux (st : FenceSt) : List (List Char) → List (List Char)
  | [] => []
  | line :: rest =>
    match fenceMatch line with
    | some marker =>
      if st.in_fence = false then extract_headings_aux ⟨true, marker⟩ rest
      else if closesFence marker st.fence_marker then extract_headings_aux ⟨false, []⟩ rest
      else extract_headings_aux st rest
    | none =>
      if st.in_fence then extract_headings_aux st rest
      else
        match headingMatch line with
        | some lt => lt.2 :: extract_headings_aux st rest
        | none => extract_headings_aux st rest

/-- Model of `check_toc.extract_headings`: heading texts outside fenced code. -/
def extract_headings (lines : List (List Char)) : List (List Char) :=
  extract_headings_aux fenceInit lines

/-- Model of `re.sub(r"\s+", "-", s)`: each maximal whitespace run becomes one `'-'`.
The Boolean argument records whether the previous character was whitespace. -/
def subSpacesAux : Bool → List Char → List Char
  | _, [] => []
  | prev, c :: rest =>
    if isPySpace c then
      if prev then subSpacesAux true rest else '-' :: subSpacesAux true rest
    else c :: subSpacesAux false rest

def subSpaces (l : List Char) : List Char := subSpacesAux false l

/-- Model of `re.sub(r"-{2,}", "-", s)`: each maximal run of two-or-more hyphens
becomes one (a run of length one is left alone, which coincides with
collapsing every run to length one). -/
def collapseDashAux : Bool → List Char → List Char
  | _, [] => []
  | prev, c :: rest =>
    if c = '-' then
      if prev then collapseDashAux true rest else '-' :: collapseDashAux true rest
    else c :: collapseDashAux false rest

def collapseDash (l : List Char) : List Char := collapseDashAux false l

/-- The character class `[\w\s-]` kept by slugify's first substitution. -/
def keepChar (c : Char) : Bool :=
  isWordChar c || isPySpace c || c = '-'

/-- Model of `check_toc.slugify`: strip, lower, delete characters outside
`[\w\s-]`, whitespace runs to `-`, collapse `-` runs, strip `-`. -/
def slugify (l : List Char) : List Char :=
  stripDashes (collapseDash (subSpaces
    (((pyStrip l).map lowerChar).filter keepChar)))

/-- The `counts` dict of `build_anchor_set`: association list with
first-match lookup. -/
def dictGet : List (List Char × Nat) → List Char → Option Nat
  | [], _ => none
  | (k, v) :: d, b => if k = b then some v else dictGet d b

def dictSet : List (List Char × Nat) → List Char → Nat → List (List Char × Nat)
  | [], k, v => [(k, v)]
  | (k', v') :: d, k, v =>
    if k' = k then (k, v) :: d else (k', v') :: dictSet d k v

/-- Decimal rendering used by the f-string `f"{base}-{counts[base]}"`. -/
def natDigits (n : Nat) : List Char := Nat.toDigits 10 n

/-- The anchor assigned to each heading, in heading order, by the loop of
`check_toc.build_anchor_set` (the Python code then accumulates these strings
into a set; the per-heading assignment is kept as an ordered list). -/
def build_anchor_aux (counts : List (List Char × Nat)) : List (List Char) → List (List Char)
  | [] => []
  | h :: hs =>
    let base := slugify h
    match dictGet counts base with
    | some n =>
      ('#' :: (base ++ '-' :: natDigits (n + 1))) ::
        build_anchor_aux (dictSet counts base (n + 1)) hs
    | none =>
      ('#' :: base) :: build_anchor_aux (dictSet counts base 0) hs

def buildAnchorList (headings : List (List Char)) : List (List Char) :=
  build_anchor_aux [] headings

/-- Occurrence count of a slug in a list of slugs. -/
def countOcc : List (List Char) → List Char → Nat
  | [], _ => 0
  | x :: xs, b => (if x = b then 1 else 0) + countOcc xs b

/-- Modelled from the claim's words, for comparison with `buildAnchorList`:
the anchor at position `i` is the bare base slug on the first occurrence of
that base slug, and `base-n` on the `n`-th later occurrence (`n` counts the
earlier occurrences of the same base slug). -/
def anchorSpecAt (hs : List (List Char)) (i : Nat) : List Char :=
  if countOcc ((hs.take i).map slugify) (slugify (hs.getD i [])) = 0 then
    '#' :: slugify (hs.getD i [])
  else
    '#' :: (slugify (hs.getD i []) ++
      '-' :: natDigits (countOcc ((hs.take i).map slugify) (slugify (hs.getD i []))))

/- ------------------------------------------------------------------ -/
/- check_section_order.py                                              -/
/- ------------------------------------------------------------------ -/

def REQUIRED_HEADINGS : List (List Char) :=
  [chars "## Agent Contract",
   chars "## TL;DR",
   chars "## Canonical Definitions",
   chars "## Core Patterns",
   chars "## Decision Checklist",
   chars "## Anti-patterns / Pitfalls",
   chars "## Evaluation",
   chars "## Update Log",
   chars "## See Also",
   chars "## References"]

def OPTIONAL_HEADING : List Char := chars "## Practical Examples"

/-- Model of `H2_RE = ^##\s+(.+?)\s*$` applied with `.match(line)`; on success the
loop records `f"## {m.group(1).strip()}"`.  As for `headingMatch`, the match
succeeds exactly when the line starts with `##` (and not a third `#`, since
`\s+` must follow) followed by a whitespace character and at least one more
character. -/
def h2Match (line : List Char) : Option (List Char) :=
  if beginsWith (chars "##") line ∧ ¬beginsWith (chars "###") line then
    match line.drop 2 with
    | c :: d :: rest =>
      if isPySpace c then some (chars "## " ++ pyStrip (c :: d :: rest)) else none
    | _ => none
  else none

def extract_headings_h2_aux (st : FenceSt) : List (List Char) → List (List Char)
  | [] => []
  | line :: rest =>
    match fenceMatch line with
    | some marker =>
      if st.in_fence = false then extract_headings_h2_aux ⟨true, marker⟩ rest
      else if closesFence marker st.fence_marker then extract_headings_h2_aux ⟨false, []⟩ rest
      else extract_headings_h2_aux st rest
    | none =>
      if st.in_fence then extract_headings_h2_aux st rest
      else
        match h2Match line with
        | some h => h :: extract_headings_h2_aux st rest
        | none => extract_headings_h2_aux st rest

/-- Model of `check_section_order.extract_headings`. -/
def extract_headings_h2 (lines : List (List Char)) : List (List Char) :=
  extract_headings_h2_aux fenceInit lines

/-- The `positions` dict: index of the first occurrence of `h` in the
extracted heading list. -/
def firstIdx : List (List Char) → List Char → Option Nat
  | [], _ => none
  | x :: xs, h => if x = h then some 0 else (firstIdx xs h).map (· + 1)

inductive SOViolation where
  | missing (hs : List (List Char))
  | order (h : List Char)
  | optionalPlacement
  | missingToken (t : List Char)
deriving DecidableEq

/-- The strict-increase scan over `REQUIRED_HEADINGS`: report the first
heading whose first-occurrence index is not greater than the previous one
(`last_idx` starts at `-1`), and stop. -/
def orderScan (headings : List (List Char)) : Int → List (List Char) → Option (List Char)
  | _, [] => none
  | last, h :: rest =>
    let idx : Int := Int.ofNat ((firstIdx headings h).getD 0)
    if idx ≤ last then some h else orderScan headings idx rest

def SSOT_TOKENS : List (List Char) :=
  [chars "BCP 14", chars "RFC 2119", chars "RFC 8174"]

/-- Model of `check_section_order.lint_file` on extracted headings and raw text
(`isSSOT` is `path.name == "SSOT.md"`).  With any required heading missing,
all missing names are reported together and nothing else is checked;
otherwise the order scan, the optional-heading placement check and (for
SSOT.md) the first missing normative token are reported in that order. -/
def lint_so_core (headings : List (List Char)) (text : List Char) (isSSOT : Bool) :
    List SOViolation :=
  let missing := REQUIRED_HEADINGS.filter (fun h => firstIdx headings h = none)
  if missing ≠ [] then [.missing missing]
  else
    (match orderScan headings (-1) REQUIRED_HEADINGS with
     | some h => [.order h]
     | none => []) ++
    (match firstIdx headings OPTIONAL_HEADING with
     | none => []
     | some opt =>
       let ev := (firstIdx headings (chars "## Evaluation")).getD 0
       let up := (firstIdx headings (chars "## Update Log")).getD 0
       if ev < opt ∧ opt < up then [] else [.optionalPlacement]) ++
    (if isSSOT then
       match SSOT_TOKENS.find? (fun t => !containsSub t text) with
       | some t => [.missingToken t]
       | none => []
     else [])

def lint_section_order (lines : List (List Char)) (isSSOT : Bool) : List SOViolation :=
  lint_so_core (extract_headings_h2 lines) (joinLines lines) isSSOT

/- ------------------------------------------------------------------ -/
/- check_references.py                                                 -/
/- ------------------------------------------------------------------ -/

/-- A line equal to the heading regex `^##\s+References\s*$` (resp.
`^##\s+Update Log\s*$` below): `##`, at least one whitespace character, the
literal word(s), then only whitespace.  (In Python these are searched with
`re.search` over the raw text; `\s` could in principle absorb a newline and
match a heading split over two lines — no claim and no well-formed document
exercises that, and the model is line-wise.) -/
def isH2LineFor (word : List Char) (line : List Char) : Bool :=
  beginsWith (chars "##") line &&
  (let r := line.drop 2
   let w := r.takeWhile isPySpace
   decide (w ≠ []) && beginsWith word (r.drop w.length) &&
     (r.drop (w.length + word.length)).all isPySpace)

/-- Split a line list at the first line satisfying `p`:
`(before, the line, after)`. -/
def splitAtFirstLine (p : List Char → Bool) :
    List (List Char) → Option (List (List Char) × List Char × List (List Char))
  | [] => none
  | l :: ls =>
    if p l then some ([], l, ls)
    else (splitAtFirstLine p ls).map (fun t => (l :: t.1, t.2.1, t.2.2))

/-- Model of `split_references_section`: split at the first `## References` heading
line; the references part includes the heading line, and is empty when the
heading is absent. -/
def split_references_section (lines : List (List Char)) :
    List (List Char) × List (List Char) :=
  match splitAtFirstLine (isH2LineFor (chars "References")) lines with
  | none => (lines, [])
  | some (pre, l, post) => (pre, l :: post)

/-- Model of `REF_USE_RE.findall` for `\[R(\d+)\]` (case-sensitive): non-overlapping
left-to-right scan.  Backtracking analysis: when a candidate starting at a
`[` fails, the regex engine restarts one character later; since `R` and
digits contain no `[`, restarting at the character where the candidate
failed finds the same matches.  `fuel` bounds the recursion (every step
consumes at least one character). -/
def findUsesAux : Nat → List Char → List (List Char)
  | 0, _ => []
  | _, [] => []
  | fuel + 1, c :: rest =>
    if c = '[' then
      match rest with
      | 'R' :: rest2 =>
        let ds := rest2.takeWhile Char.isDigit
        if ds ≠ [] then
          match rest2.drop ds.length with
          | ']' :: rest3 => ds :: findUsesAux fuel rest3
          | _ => findUsesAux fuel (rest2.drop ds.length)
        else findUsesAux fuel rest2
      | _ => findUsesAux fuel rest
    else findUsesAux fuel rest

def findUses (l : List Char) : List (List Char) :=
  findUsesAux l.length l

/-- Model of `REF_DEF_RE.match(line)` for
`^\s*[-*]\s*\[R(\d+)\]\s+.+` with IGNORECASE: optional leading whitespace, a
`-` or `*` bullet, optional whitespace, `[R` (either case), digits, `]`,
at least one whitespace character and at least one further character.
(`re.findall` over the whole references text with MULTILINE finds exactly
the per-line matches: `^\s*` may absorb preceding blank lines, but each
definition line still yields one match with the same group.) -/
def defMatch (line : List Char) : Option (List Char) :=
  match line.dropWhile isPySpace with
  | c :: r2 =>
    if c = '-' ∨ c = '*' then
      match r2.dropWhile isPySpace with
      | '[' :: c2 :: r4 =>
        if c2 = 'R' ∨ c2 = 'r' then
          let ds := r4.takeWhile Char.isDigit
          if ds ≠ [] then
            match r4.drop ds.length with
            | ']' :: c3 :: _ :: _ =>
              if isPySpace c3 then some ds else none
            | _ => none
          else none
        else none
      | _ => none
    else none
  | [] => none

/-- Model of `URL_RE.search(line)` for `https?://\S+`: some position starts with
`http://` or `https://` followed by at least one non-whitespace character. -/
def hasURL : List Char → Bool
  | [] => false
  | c :: rest =>
    (beginsWith (chars "http://") (c :: rest) &&
       (match (c :: rest).drop 7 with
        | d :: _ => !isPySpace d
        | [] => false)) ||
    (beginsWith (chars "https://") (c :: rest) &&
       (match (c :: rest).drop 8 with
        | d :: _ => !isPySpace d
        | [] => false)) ||
    hasURL rest

/-- Case-insensitive comparison of a character against a lowercase pattern
character (for the IGNORECASE patterns). -/
def eqCI (pat c : Char) : Bool := lowerChar c = pat

def beginsWithCI (pat l : List Char) : Bool :=
  decide ((l.take pat.length).map lowerChar = pat)

/-- Model of `DATE_RE.search(line)` for `\((retrieved|accessed)\s+\d{4}-\d{2}-\d{2}`
with IGNORECASE. -/
def dateAt (l : List Char) : Bool :=
  match l with
  | '(' :: r =>
    let afterWord :=
      if beginsWithCI (chars "retrieved") r then some (r.drop 9)
      else if beginsWithCI (chars "accessed") r then some (r.drop 8)
      else none
    match afterWord with
    | none => false
    | some r2 =>
      let w := r2.takeWhile isPySpace
      decide (w ≠ []) &&
      (match r2.drop w.length with
       | a :: b :: c :: d :: '-' :: e :: f :: '-' :: g :: h :: _ =>
         [a, b, c, d, e, f, g, h].all Char.isDigit
       | _ => false)
  | _ => false

def hasDate : List Char → Bool
  | [] => false
  | c :: rest => dateAt (c :: rest) || hasDate rest

/-- Model of `set(...)` on extracted ID strings: deduplication keeping the first
occurrence (the Python set's unspecified iteration order only affects tie
order among IDs with equal integer value, which does not arise here). -/
def dedupFirstAux (seen : List (List Char)) : List (List Char) → List (List Char)
  | [] => []
  | x :: xs =>
    if x ∈ seen then dedupFirstAux seen xs
    else x :: dedupFirstAux (x :: seen) xs

def dedupFirst (l : List (List Char)) : List (List Char) := dedupFirstAux [] l

def digitsToNat (l : List Char) : Nat :=
  l.foldl (fun a c => a * 10 + (c.toNat - 48)) 0

/-- Model of `sorted(ids, key=int)`: stable insertion sort on the integer value. -/
def insertByKey (x : List Char) : List (List Char) → List (List Char)
  | [] => [x]
  | y :: ys =>
    if digitsToNat x ≤ digitsToNat y then x :: y :: ys else y :: insertByKey x ys

def sortByInt : List (List Char) → List (List Char)
  | [] => []
  | x :: xs => insertByKey x (sortByInt xs)

inductive RefViolation where
  | undefined (ids : List (List Char))
  | unused (ids : List (List Char))
  | missingURL (id : List Char) (line : List Char)
  | missingDate (id : List Char) (line : List Char)
  | emptyDefs
deriving DecidableEq

/-- Per-definition-line URL/date checks (loop 3 of `lint_file`). -/
def refLineErrs (line : List Char) : List RefViolation :=
  match defMatch line with
  | none => []
  | some id =>
    (if hasURL line then [] else [.missingURL id line]) ++
    (if hasDate line then [] else [.missingDate id line])

/-- Model of `check_references.lint_file` on a document given as its lines:
undefined-used, unused-defined, per-line URL/date checks, and the
empty-definitions check, in that order. -/
def ref_lint (lines : List (List Char)) : List RefViolation :=
  let sp := split_references_section lines
  let used := dedupFirst (findUses (joinLines (strip_code sp.1)))
  let defined := dedupFirst (sp.2.filterMap defMatch)
  let missing := sortByInt (used.filter (fun x => x ∉ defined))
  let unused := sortByInt (defined.filter (fun x => x ∉ used))
  (if missing ≠ [] then [.undefined missing] else []) ++
  (if unused ≠ [] then [.unused unused] else []) ++
  sp.2.flatMap refLineErrs ++
  (if sp.2 ≠ [] ∧ defined = [] then [.emptyDefs] else [])

/- ------------------------------------------------------------------ -/
/- src/checks/check_fences.py                                          -/
/- ------------------------------------------------------------------ -/

structure FenceAcc where
  in_fence : Bool
  fence_marker : List Char
  opened_at : Nat
deriving DecidableEq

/-- The loop of `check_fences.lint_file`: `idx` is the 1-based number of the
current line (`enumerate(start=1)`); `opened_at` records where the currently
open fence began. -/
def fences_scan (acc : FenceAcc) (idx : Nat) : List (List Char) → FenceAcc
  | [] => acc
  | line :: rest =>
    match fenceMatch line with
    | none => fences_scan acc (idx + 1) rest
    | some marker =>
      if acc.in_fence = false then fences_scan ⟨true, marker, idx⟩ (idx + 1) rest
      else if closesFence marker acc.fence_marker then
        fences_scan ⟨false, [], 0⟩ (idx + 1) rest
      else fences_scan acc (idx + 1) rest

inductive FenceViolation where
  | unclosed (openedAt : Nat)
deriving DecidableEq

/-- Model of `check_fences.lint_file`: report an unclosed fence (with its opening
line number) exactly when the state is still open at end of document. -/
def lint_file_fences (lines : List (List Char)) : List FenceViolation :=
  let acc := fences_scan ⟨false, [], 0⟩ 1 lines
  if acc.in_fence then [.unclosed acc.opened_at] else []

/- ------------------------------------------------------------------ -/
/- src/checks/check_last_updated.py                                    -/
/- ------------------------------------------------------------------ -/

/-- Model of `FRONTMATTER_RE.match(text)` for `(?s)^---\n(.*?)\n---\n`: the text must
begin with `---` and a newline, and the lazy group is everything up to the
earliest following `\n---\n`. -/
def fmMatch (text : List Char) : Option (List Char) :=
  if beginsWith (chars "---\n") text then
    match splitFirstSub (chars "\n---\n") (text.drop 4) with
    | some (pre, _) => some pre
    | none => none
  else none

/-- A frontmatter line matching
`(?m)^last_updated:\s*(\d{4}-\d{2}-\d{2})\s*$`. -/
def lineLastUpdated (line : List Char) : Option (List Char) :=
  if beginsWith (chars "last_updated:") line then
    let r := (line.drop 13).dropWhile isPySpace
    match r with
    | a :: b :: c :: d :: '-' :: e :: f :: '-' :: g :: h :: rest =>
      if [a, b, c, d, e, f, g, h].all Char.isDigit ∧ rest.all isPySpace then
        some [a, b, c, d, '-', e, f, '-', g, h]
      else none
    | _ => none
  else none

def firstSomeLine (f : List Char → Option (List Char)) :
    List (List Char) → Option (List Char)
  | [] => none
  | l :: ls =>
    match f l with
    | some v => some v
    | none => firstSomeLine f ls

/-- Model of `parse_last_updated`: the date from the first `last_updated:` line of
the frontmatter block, if any. -/
def parse_last_updated (text : List Char) : Option (List Char) :=
  match fmMatch text with
  | none => none
  | some fm => firstSomeLine lineLastUpdated (splitLines fm)

/-- Parse a leading `\d{4}-\d{2}-\d{2}`, returning the date and the rest. -/
def parseDate10 : List Char → Option (List Char × List Char)
  | a :: b :: c :: d :: '-' :: e :: f :: '-' :: g :: h :: rest =>
    if [a, b, c, d, e, f, g, h].all Char.isDigit then
      some ([a, b, c, d, '-', e, f, '-', g, h], rest)
    else none
  | _ => none

/-- The optional `(?:T[0-9:]+Z)?` suffix: consumed only when a `T`, a
nonempty run of digits/colons, and a `Z` follow (the greedy run leaves the
`Z` as the only possible split); otherwise nothing is consumed.  (When the
suffix is consumable but the trailing `\b` then fails, the regex engine's
retry without the suffix also fails, since the next character `T` is a word
character — so no backtracking case is lost.) -/
def timeSkip (l : List Char) : List Char :=
  match l with
  | 'T' :: r =>
    let run := r.takeWhile (fun c => Char.isDigit c || c = ':')
    if run ≠ [] then
      match r.drop run.length with
      | 'Z' :: rest => rest
      | _ => l
    else l
  | _ => l

/-- Model of `UPDATE_LOG_FIRST_ENTRY_RE.match(line)` for
`^\s*-\s*(?:\*\*)?(\d{4}-\d{2}-\d{2})(?:T[0-9:]+Z)?(?:\*\*)?\b`.
Backtracking analysis: when `**` is present the date must follow it (the
fallback without `**` would need a digit at a `*`); the final `\b` sits
after a digit or `Z`, so with an optional trailing `**` unconsumed it holds
exactly when the remainder is empty or starts with a non-word character
(`*` itself is a non-word character, so a present trailing `**` always
satisfies it). -/
def entryMatch (line : List Char) : Option (List Char) :=
  match line.dropWhile isPySpace with
  | '-' :: r3 =>
    let r4 := r3.dropWhile isPySpace
    let core :=
      if beginsWith (chars "**") r4 then parseDate10 (r4.drop 2) else parseDate10 r4
    match core with
    | none => none
    | some (d, r5) =>
      let r6 := timeSkip r5
      match r6 with
      | [] => some d
      | c :: _ => if isWordChar c then none else some d
  | _ => none

/-- The lines following the first `## Update Log` heading line.  (Python
takes `text[m.end():].splitlines()`; `m.end()` can sit before the newline of
the heading line or after some purely-blank lines absorbed by `\s*$` — both
yield the same non-blank lines, so the model takes all lines after the
heading line.) -/
def updateLogTail (text : List Char) : Option (List (List Char)) :=
  (splitAtFirstLine (isH2LineFor (chars "Update Log")) (splitLines text)).map
    (fun t => t.2.2)

/-- The scan of `parse_update_log_top_date`: skip blank lines; at the first
non-blank line, a `##` heading or anything but a matching bullet is a
failure, analysed in the source as three branches that all return `None`. -/
def scanTop : List (List Char) → Option (List Char)
  | [] => none
  | l :: ls =>
    if pyStrip l = [] then scanTop ls
    else if beginsWith (chars "##") l then none
    else entryMatch l

def parse_update_log_top_date (text : List Char) : Option (List Char) :=
  match updateLogTail text with
  | none => none
  | some after => scanTop after

inductive LUViolation where
  | missingLastUpdated
  | missingTopDate
  | mismatch (lastUpdated topDate : List Char)
deriving DecidableEq

/-- The per-file block of `check_last_updated.main`. -/
def check_last_updated_file (text : List Char) : List LUViolation :=
  match parse_last_updated text with
  | none => [.missingLastUpdated]
  | some d =>
    match parse_update_log_top_date text with
    | none => [.missingTopDate]
    | some d' => if d' ≠ d then [.mismatch d d'] else []

/- ------------------------------------------------------------------ -/
/- check_links.py                                                      -/
/- ------------------------------------------------------------------ -/

/-- Model of `LINK_RE.findall` for `\[[^\]]*\]\(([^)]+)\)`: non-overlapping scan; on
failure the engine restarts one character later, which the character-by-
character advance reproduces.  `fuel` bounds the recursion (each step
consumes at least one character). -/
def findLinksAux : Nat → List Char → List (List Char)
  | 0, _ => []
  | _, [] => []
  | fuel + 1, c :: rest =>
    if c = '[' then
      let lab := rest.takeWhile (fun d => d ≠ ']')
      match rest.drop lab.length with
      | ']' :: '(' :: r2 =>
        let inner := r2.takeWhile (fun d => d ≠ ')')
        if inner ≠ [] then
          match r2.drop inner.length with
          | ')' :: r3 => inner :: findLinksAux fuel r3
          | _ => findLinksAux fuel rest
        else findLinksAux fuel rest
      | _ => findLinksAux fuel rest
    else findLinksAux fuel rest

def findLinks (l : List Char) : List (List Char) :=
  findLinksAux l.length l

/-- Target normalization from the `check_links` loop: strip whitespace;
if it contains a space and is not angle-bracketed, cut at the first space
and strip again; then strip `<`/`>` from both ends. -/
def normTarget (raw : List Char) : List Char :=
  let t := pyStrip raw
  let t :=
    if t.contains ' ' ∧ ¬beginsWith (chars "<") t then
      pyStrip (t.takeWhile (fun c => c ≠ ' '))
    else t
  dropTrailing (fun c => c = '<' ∨ c = '>') (t.dropWhile (fun c => c = '<' ∨ c = '>'))

/-- Model of `target.startswith(SKIP_PREFIXES)` for
`("http://", "https://", "mailto:", "tel:")`. -/
def isExternal (t : List Char) : Bool :=
  beginsWith (chars "http://") t || beginsWith (chars "https://") t ||
  beginsWith (chars "mailto:") t || beginsWith (chars "tel:") t

/-- The skip/resolve decision of the `check_links` loop: `none` when the
link is skipped, `some (target, path_part)` when `path_part` is handed to
filesystem resolution. -/
def classifyTarget (raw : List Char) : Option (List Char × List Char) :=
  let target := normTarget raw
  if target = [] ∨ beginsWith (chars "#") target then none
  else if isExternal target then none
  else
    let path_part := target.takeWhile (fun c => c ≠ '#')
    if path_part = [] then none
    else if path_part.contains ':' ∧
        ¬(beginsWith (chars "./") path_part ∨ beginsWith (chars "../") path_part) then
      none
    else some (target, path_part)

/-- Path segments of a relative path string (split on `/`). -/
def splitSegsAux (cur : List Char) : List Char → List (List Char)
  | [] => [cur.reverse]
  | c :: rest =>
    if c = '/' then cur.reverse :: splitSegsAux [] rest
    else splitSegsAux (c :: cur) rest

def splitSegs (p : List Char) : List (List Char) := splitSegsAux [] p

/-- One step of lexical path normalization: drop empty and `.` segments,
resolve `..` against the accumulated prefix. -/
def segStep (acc : List (List Char)) (s : List Char) : List (List Char) :=
  if s = [] ∨ s = chars "." then acc
  else if s = chars ".." then acc.dropLast
  else acc ++ [s]

/-- Lexical path normalization — the behaviour of `Path.resolve(strict=False)`
on non-existing paths, against an absolute path given as its segments. -/
def normSegs (segs : List (List Char)) : List (List Char) :=
  segs.foldl segStep []

/-- Model of `(md.parent / path_part).resolve()`: absolute paths are modelled as
segment lists below an implicit root; `cwd` is the interpreter's working
directory (md paths in `MD_FILES` are relative), `parent` the document's
directory. -/
def resolveSegs (cwd parent : List (List Char)) (p : List Char) : List (List Char) :=
  normSegs (cwd ++ parent ++ splitSegs p)

structure BrokenLink where
  doc : List Char
  target : List Char
  resolved : List (List Char)
deriving DecidableEq

/-- The per-document body of the `check_links` main loop: every link target
extracted from the fence-stripped text is normalized, classified, and — when
it reaches resolution — reported with its resolved path when the filesystem
oracle `fs` says the resolved path does not exist. -/
def check_links_doc (fs : List (List Char) → Bool) (cwd : List (List Char))
    (mdName : List Char) (mdParent : List (List Char))
    (lines : List (List Char)) : List BrokenLink :=
  (findLinks (joinLines (strip_fenced_code lines))).filterMap
    (fun raw =>
      match classifyTarget raw with
      | none => none
      | some tp =>
        let resolved := resolveSegs cwd mdParent tp.2
        if fs resolved then none
        else some ⟨mdName, tp.1, resolved⟩)

/- ------------------------------------------------------------------ -/
/- Helper lemmas                                                       -/
/- ------------------------------------------------------------------ -/

theorem stateAfter_nil (st : FenceSt) : stateAfter st [] = st := rfl

theorem stateAfter_cons (st : FenceSt) (x : List Char) (xs : List (List Char)) :
    stateAfter st (x :: xs) = stateAfter (fenceStep st x) xs := rfl

theorem take_one_eq_head (marker : List Char) (c : Char) :
    marker.take 1 = [c] ↔ marker.head? = some c := by
  cases marker <;> simp

/-- While a fence is open, `closesFence` is exactly the class-and-length
condition of the claim. -/
theorem closesFence_iff (marker fm : List Char) (c : Char) (hc : fm.head? = some c) :
    closesFence marker fm = true ↔ marker.head? = some c ∧ fm.length ≤ marker.length := by
  obtain ⟨t, rfl⟩ : ∃ t, fm = c :: t := by
    cases fm with
    | nil => simp at hc
    | cons a t => exact ⟨t, by simp at hc; rw [hc]⟩
  unfold closesFence beginsWith
  simp only [List.take_succ_cons, List.take_zero, List.length_cons,
    List.length_nil, Nat.zero_add, Bool.and_eq_true, decide_eq_true_eq]
  rw [take_one_eq_head]

/- ------------------------------------------------------------------ -/
/- C2                                                                  -/
/- ------------------------------------------------------------------ -/

/-- C2: While a fence opened by a marker of length `N` and first character
`c` is open, a fence-like line closes it iff its marker's first character is
`c` and its length is at least `N`; a fence-like line that does not satisfy
this leaves the state unchanged (in particular it does not open a new
fence), and a non-fence-like line leaves the state unchanged. -/
theorem claim_C2 (st : FenceSt) (c : Char) (N : Nat)
    (hin : st.in_fence = true) (hc : st.fence_marker.head? = some c)
    (hN : st.fence_marker.length = N) :
    (∀ line marker, fenceMatch line = some marker →
      (((fenceStep st line).in_fence = false) ↔
        (marker.head? = some c ∧ N ≤ marker.length)) ∧
      (¬(marker.head? = some c ∧ N ≤ marker.length) → fenceStep st line = st)) ∧
    (∀ line, fenceMatch line = none → fenceStep st line = st) := by
  subst hN
  constructor
  · intro line marker hm
    have hcl := closesFence_iff marker st.fence_marker c hc
    unfold fenceStep
    rw [hm, hin]
    simp only [Bool.true_eq_false, if_false]
    by_cases h : closesFence marker st.fence_marker = true
    · rw [if_pos h]
      exact ⟨by simpa using hcl.mp h, fun hn => absurd (hcl.mp h) hn⟩
    · rw [if_neg h]
      refine ⟨⟨fun habs => absurd habs (by simp [hin]), fun hcond => absurd (hcl.mpr hcond) h⟩,
        fun _ => rfl⟩
  · intro line hm
    unfold fenceStep
    rw [hm]

/-- C2 witness: a fence opened by three backticks stays open on `~~~` and on
a line of two backticks, and is closed by four backticks. -/
theorem claim_C2_witness :
    ((fenceStep ⟨true, chars "```"⟩ (chars "````")).in_fence = false) ∧
    (fenceStep ⟨true, chars "```"⟩ (chars "~~~") = ⟨true, chars "```"⟩) ∧
    (fenceStep ⟨true, chars "```"⟩ (chars "``x") = ⟨true, chars "```"⟩) :=
  ⟨((claim_C2 ⟨true, chars "```"⟩ '`' 3 rfl rfl rfl).1 (chars "````")
      (chars "````") (by decide)).1.mpr (by decide),
   ((claim_C2 ⟨true, chars "```"⟩ '`' 3 rfl rfl rfl).1 (chars "~~~")
      (chars "~~~") (by decide)).2 (by decide),
   (claim_C2 ⟨true, chars "```"⟩ '`' 3 rfl rfl rfl).2 (chars "``x") (by decide)⟩

/- ------------------------------------------------------------------ -/
/- C1                                                                  -/
/- ------------------------------------------------------------------ -/

theorem strip_code_aux_append (xs : List (List Char)) :
    ∀ (st : FenceSt) (ys : List (List Char)),
    strip_code_aux st (xs ++ ys) =
      strip_code_aux st xs ++ strip_code_aux (stateAfter st xs) ys := by
  induction xs with
  | nil => intro st ys; rfl
  | cons x xs ih =>
    intro st ys
    rw [List.cons_append, stateAfter_cons]
    simp only [strip_code_aux]
    cases hm : fenceMatch x with
    | some marker =>
      simp only [fenceStep, hm]
      by_cases h1 : st.in_fence = false
      · simp [h1, ih]
      · by_cases h2 : closesFence marker st.fence_marker = true
        · simp [h1, h2, ih]
        · simp [h1, h2, ih]
    | none =>
      simp only [fenceStep, hm]
      by_cases h1 : st.in_fence = true
      · simp [h1, ih]
      · by_cases h2 : isIndent x = true
        · simp [h1, h2, ih]
        · simp [h1, h2, ih]

theorem strip_code_aux_skip (st : FenceSt) (line : List Char)
    (hin : st.in_fence = true) (hstep : fenceStep st line = st)
    (ys : List (List Char)) :
    strip_code_aux st (line :: ys) = strip_code_aux st ys := by
  simp only [strip_code_aux]
  cases hm : fenceMatch line with
  | some marker =>
    by_cases h2 : closesFence marker st.fence_marker = true
    · exfalso
      unfold fenceStep at hstep
      rw [hm] at hstep
      simp only [hin, Bool.true_eq_false, if_false, h2, if_true] at hstep
      have : (⟨false, []⟩ : FenceSt).in_fence = st.in_fence := by rw [hstep]
      rw [hin] at this
      exact Bool.false_ne_true this
    · simp [hin, h2]
  | none => simp [hin]

theorem extract_headings_aux_append (xs : List (List Char)) :
    ∀ (st : FenceSt) (ys : List (List Char)),
    extract_headings_aux st (xs ++ ys) =
      extract_headings_aux st xs ++ extract_headings_aux (stateAfter st xs) ys := by
  induction xs with
  | nil => intro st ys; rfl
  | cons x xs ih =>
    intro st ys
    rw [List.cons_append, stateAfter_cons]
    simp only [extract_headings_aux]
    cases hm : fenceMatch x with
    | some marker =>
      simp only [fenceStep, hm]
      by_cases h1 : st.in_fence = false
      · simp [h1, ih]
      · by_cases h2 : closesFence marker st.fence_marker = true
        · simp [h1, h2, ih]
        · simp [h1, h2, ih]
    | none =>
      simp only [fenceStep, hm]
      by_cases h1 : st.in_fence = true
      · simp [h1, ih]
      · cases hh : headingMatch x with
        | some lt => simp [h1, hh, ih]
        | none => simp [h1, hh, ih]

theorem extract_headings_aux_skip (st : FenceSt) (line : List Char)
    (hin : st.in_fence = true) (hstep : fenceStep st line = st)
    (ys : List (List Char)) :
    extract_headings_aux st (line :: ys) = extract_headings_aux st ys := by
  simp only [extract_headings_aux]
  cases hm : fenceMatch line with
  | some marker =>
    by_cases h2 : closesFence marker st.fence_marker = true
    · exfalso
      unfold fenceStep at hstep
      rw [hm] at hstep
      simp only [hin, Bool.true_eq_false, if_false, h2, if_true] at hstep
      have : (⟨false, []⟩ : FenceSt).in_fence = st.in_fence := by rw [hstep]
      rw [hin] at this
      exact Bool.false_ne_true this
    · simp [hin, h2]
  | none => simp [hin]

theorem extract_headings_h2_aux_append (xs : List (List Char)) :
    ∀ (st : FenceSt) (ys : List (List Char)),
    extract_headings_h2_aux st (xs ++ ys) =
      extract_headings_h2_aux st xs ++ extract_headings_h2_aux (stateAfter st xs) ys := by
  induction xs with
  | nil => intro st ys; rfl
  | cons x xs ih =>
    intro st ys
    rw [List.cons_append, stateAfter_cons]
    simp only [extract_headings_h2_aux]
    cases hm : fenceMatch x with
    | some marker =>
      simp only [fenceStep, hm]
      by_cases h1 : st.in_fence = false
      · simp [h1, ih]
      · by_cases h2 : closesFence marker st.fence_marker = true
        · simp [h1, h2, ih]
        · simp [h1, h2, ih]
    | none =>
      simp only [fenceStep, hm]
      by_cases h1 : st.in_fence = true
      · simp [h1, ih]
      · cases hh : h2Match x with
        | some h => simp [h1, ih]
        | none => simp [h1, ih]

theorem extract_headings_h2_aux_skip (st : FenceSt) (line : List Char)
    (hin : st.in_fence = true) (hstep : fenceStep st line = st)
    (ys : List (List Char)) :
    extract_headings_h2_aux st (line :: ys) = extract_headings_h2_aux st ys := by
  simp only [extract_headings_h2_aux]
  cases hm : fenceMatch line with
  | some marker =>
    by_cases h2 : closesFence marker st.fence_marker = true
    · exfalso
      unfold fenceStep at hstep
      rw [hm] at hstep
      simp only [hin, Bool.true_eq_false, if_false, h2, if_true] at hstep
      have : (⟨false, []⟩ : FenceSt).in_fence = st.in_fence := by rw [hstep]
      rw [hin] at this
      exact Bool.false_ne_true this
    · simp [hin, h2]
  | none => simp [hin]

/-- C1: a line at which the fence state is open and which does not close the
fence (the state after it is unchanged) is excluded from code stripping —
hence from reference-usage and link extraction, which run on the stripped
text — and from heading extraction: deleting the line changes none of these
results, whatever the line's content. -/
theorem claim_C1 (pre suf : List (List Char)) (line : List Char)
    (hin : (stateAfter fenceInit pre).in_fence = true)
    (hstep : fenceStep (stateAfter fenceInit pre) line = stateAfter fenceInit pre) :
    strip_code (pre ++ line :: suf) = strip_code (pre ++ suf) ∧
    strip_fenced_code (pre ++ line :: suf) = strip_fenced_code (pre ++ suf) ∧
    extract_headings (pre ++ line :: suf) = extract_headings (pre ++ suf) ∧
    extract_headings_h2 (pre ++ line :: suf) = extract_headings_h2 (pre ++ suf) ∧
    findUses (joinLines (strip_code (pre ++ line :: suf))) =
      findUses (joinLines (strip_code (pre ++ suf))) ∧
    findLinks (joinLines (strip_fenced_code (pre ++ line :: suf))) =
      findLinks (joinLines (strip_fenced_code (pre ++ suf))) := by
  have h1 : strip_code (pre ++ line :: suf) = strip_code (pre ++ suf) := by
    unfold strip_code
    rw [strip_code_aux_append, strip_code_aux_append,
      strip_code_aux_skip _ _ hin hstep]
  have h2 : extract_headings (pre ++ line :: suf) = extract_headings (pre ++ suf) := by
    unfold extract_headings
    rw [extract_headings_aux_append, extract_headings_aux_append,
      extract_headings_aux_skip _ _ hin hstep]
  have h3 : extract_headings_h2 (pre ++ line :: suf) = extract_headings_h2 (pre ++ suf) := by
    unfold extract_headings_h2
    rw [extract_headings_h2_aux_append, extract_headings_h2_aux_append,
      extract_headings_h2_aux_skip _ _ hin hstep]
  exact ⟨h1, h1, h2, h3, by rw [h1], by unfold strip_fenced_code; rw [h1]⟩

/-- C1 witness: a line inside an open backtick fence that itself mimics a
heading, an `[R1]` citation and a link is excluded from every extraction. -/
theorem claim_C1_witness :
    ((stateAfter fenceInit [chars "```"]).in_fence = true) ∧
    strip_code [chars "```", chars "## Fake [R1] [x](y)", chars "```", chars "ok"] =
      strip_code [chars "```", chars "```", chars "ok"] ∧
    extract_headings [chars "```", chars "## Fake [R1] [x](y)", chars "```", chars "ok"] =
      extract_headings [chars "```", chars "```", chars "ok"] :=
  ⟨by decide,
   (claim_C1 [chars "```"] [chars "```", chars "ok"] (chars "## Fake [R1] [x](y)")
      (by decide) (by decide)).1,
   (claim_C1 [chars "```"] [chars "```", chars "ok"] (chars "## Fake [R1] [x](y)")
      (by decide) (by decide)).2.2.1⟩

/- ------------------------------------------------------------------ -/
/- C8                                                                  -/
/- ------------------------------------------------------------------ -/

/-- The scan of `check_fences.lint_file` tracks the same fence state as
`fenceStep`. -/
theorem fences_scan_state (lines : List (List Char)) :
    ∀ (inf : Bool) (fm : List Char) (oat idx : Nat),
    (fences_scan ⟨inf, fm, oat⟩ idx lines).in_fence =
      (stateAfter ⟨inf, fm⟩ lines).in_fence ∧
    (fences_scan ⟨inf, fm, oat⟩ idx lines).fence_marker =
      (stateAfter ⟨inf, fm⟩ lines).fence_marker := by
  induction lines with
  | nil => intro inf fm oat idx; exact ⟨rfl, rfl⟩
  | cons x rest ih =>
    intro inf fm oat idx
    rw [stateAfter_cons]
    cases hm : fenceMatch x with
    | none =>
      have hstep : fenceStep ⟨inf, fm⟩ x = ⟨inf, fm⟩ := by unfold fenceStep; rw [hm]
      rw [hstep]
      simp only [fences_scan, hm]
      exact ih inf fm oat (idx + 1)
    | some marker =>
      cases inf with
      | false =>
        have hstep : fenceStep ⟨false, fm⟩ x = ⟨true, marker⟩ := by
          unfold fenceStep; rw [hm]; rfl
        rw [hstep]
        simp only [fences_scan, hm]
        simp only [show ((⟨false, fm, oat⟩ : FenceAcc).in_fence = false) = True by simp,
          if_true]
        exact ih true marker idx (idx + 1)
      | true =>
        by_cases h2 : closesFence marker fm = true
        · have hstep : fenceStep ⟨true, fm⟩ x = ⟨false, []⟩ := by
            unfold fenceStep; rw [hm]; simp [h2]
          rw [hstep]
          simp only [fences_scan, hm]
          simp only [show ((⟨true, fm, oat⟩ : FenceAcc).in_fence = false) = False by simp,
            if_false, show closesFence marker (⟨true, fm, oat⟩ : FenceAcc).fence_marker = true
              from h2, if_true]
          exact ih false [] 0 (idx + 1)
        · have hstep : fenceStep ⟨true, fm⟩ x = ⟨true, fm⟩ := by
            unfold fenceStep; rw [hm]; simp [h2]
          rw [hstep]
          simp only [fences_scan, hm]
          simp only [show ((⟨true, fm, oat⟩ : FenceAcc).in_fence = false) = False by simp,
            if_false, if_neg (show ¬closesFence marker
              (⟨true, fm, oat⟩ : FenceAcc).fence_marker = true from h2)]
          exact ih true fm oat (idx + 1)

/-- While the fence never closes over the remaining lines, `opened_at` is
preserved. -/
theorem fences_scan_oat_stay (lines : List (List Char)) :
    ∀ (fm : List Char) (oat idx : Nat),
    (∀ j, j ≤ lines.length →
      (stateAfter ⟨true, fm⟩ (lines.take j)).in_fence = true) →
    (fences_scan ⟨true, fm, oat⟩ idx lines).opened_at = oat := by
  induction lines with
  | nil => intro fm oat idx _; rfl
  | cons x rest ih =>
    intro fm oat idx hopen
    cases hm : fenceMatch x with
    | none =>
      have hstep : fenceStep ⟨true, fm⟩ x = ⟨true, fm⟩ := by unfold fenceStep; rw [hm]
      simp only [fences_scan, hm]
      refine ih fm oat (idx + 1) (fun j hj => ?_)
      have := hopen (j + 1) (by simpa using Nat.succ_le_succ hj)
      rwa [List.take_succ_cons, stateAfter_cons, hstep] at this
    | some marker =>
      by_cases h2 : closesFence marker fm = true
      · exfalso
        have h1 := hopen 1 (by simp)
        have hstep : fenceStep ⟨true, fm⟩ x = ⟨false, []⟩ := by
          unfold fenceStep; rw [hm]; simp [h2]
        rw [List.take_succ_cons, List.take_zero, stateAfter_cons, hstep] at h1
        exact Bool.false_ne_true h1
      · have hstep : fenceStep ⟨true, fm⟩ x = ⟨true, fm⟩ := by
          unfold fenceStep; rw [hm]; simp [h2]
        simp only [fences_scan, hm]
        simp only [show ((⟨true, fm, oat⟩ : FenceAcc).in_fence = false) = False by simp,
          if_false, if_neg (show ¬closesFence marker
            (⟨true, fm, oat⟩ : FenceAcc).fence_marker = true from h2)]
        refine ih fm oat (idx + 1) (fun j hj => ?_)
        have := hopen (j + 1) (by simpa using Nat.succ_le_succ hj)
        rwa [List.take_succ_cons, stateAfter_cons, hstep] at this

/-- If the state is closed just before line `i` (0-based) and open at every
point after it, the scan's final `opened_at` is `idx + i`. -/
theorem fences_scan_oat (lines : List (List Char)) :
    ∀ (inf : Bool) (fm : List Char) (oat idx i : Nat),
    i < lines.length →
    (stateAfter ⟨inf, fm⟩ (lines.take i)).in_fence = false →
    (∀ j, j ≤ lines.length → i < j → (stateAfter ⟨inf, fm⟩ (lines.take j)).in_fence = true) →
    (fences_scan ⟨inf, fm, oat⟩ idx lines).opened_at = idx + i := by
  induction lines with
  | nil => intro inf fm oat idx i hi _ _; exact absurd hi (Nat.not_lt_zero i)
  | cons x rest ih =>
    intro inf fm oat idx i hi hclosed hopen
    cases i with
    | zero =>
      have hst : inf = false := by simpa using hclosed
      subst hst
      have h1 : (stateAfter ⟨false, fm⟩ ((x :: rest).take 1)).in_fence = true :=
        hopen 1 (by simp) (by omega)
      rw [List.take_succ_cons, List.take_zero, stateAfter_cons, stateAfter_nil] at h1
      cases hm : fenceMatch x with
      | none =>
        exfalso
        unfold fenceStep at h1
        rw [hm] at h1
        exact Bool.false_ne_true h1
      | some marker =>
        have hstep : fenceStep ⟨false, fm⟩ x = ⟨true, marker⟩ := by
          unfold fenceStep; rw [hm]; rfl
        simp only [fences_scan, hm]
        simp only [show ((⟨false, fm, oat⟩ : FenceAcc).in_fence = false) = True by simp,
          if_true, Nat.add_zero]
        refine fences_scan_oat_stay rest marker idx (idx + 1) (fun j hj => ?_)
        have := hopen (j + 1) (by simpa using Nat.succ_le_succ hj) (by omega)
        rwa [List.take_succ_cons, stateAfter_cons, hstep] at this
    | succ k =>
      have hk : k < rest.length := by simpa using hi
      have hclosed' : (stateAfter (fenceStep ⟨inf, fm⟩ x) (rest.take k)).in_fence = false := by
        rw [← stateAfter_cons, ← List.take_succ_cons]; exact hclosed
      have hopen' : ∀ j, j ≤ rest.length → k < j →
          (stateAfter (fenceStep ⟨inf, fm⟩ x) (rest.take j)).in_fence = true := by
        intro j hj hkj
        have := hopen (j + 1) (by simpa using Nat.succ_le_succ hj) (by omega)
        rwa [List.take_succ_cons, stateAfter_cons] at this
      have goal_shift : idx + 1 + k = idx + (k + 1) := by omega
      cases hm : fenceMatch x with
      | none =>
        have hstep : fenceStep ⟨inf, fm⟩ x = ⟨inf, fm⟩ := by unfold fenceStep; rw [hm]
        rw [hstep] at hclosed' hopen'
        simp only [fences_scan, hm]
        rw [ih inf fm oat (idx + 1) k hk hclosed' hopen', goal_shift]
      | some marker =>
        cases inf with
        | false =>
          have hstep : fenceStep ⟨false, fm⟩ x = ⟨true, marker⟩ := by
            unfold fenceStep; rw [hm]; rfl
          rw [hstep] at hclosed' hopen'
          simp only [fences_scan, hm]
          simp only [show ((⟨false, fm, oat⟩ : FenceAcc).in_fence = false) = True by simp,
            if_true]
          rw [ih true marker idx (idx + 1) k hk hclosed' hopen', goal_shift]
        | true =>
          by_cases h2 : closesFence marker fm = true
          · have hstep : fenceStep ⟨true, fm⟩ x = ⟨false, []⟩ := by
              unfold fenceStep; rw [hm]; simp [h2]
            rw [hstep] at hclosed' hopen'
            simp only [fences_scan, hm]
            simp only [show ((⟨true, fm, oat⟩ : FenceAcc).in_fence = false) = False by simp,
              if_false, show closesFence marker (⟨true, fm, oat⟩ : FenceAcc).fence_marker = true
                from h2, if_true]
            rw [ih false [] 0 (idx + 1) k hk hclosed' hopen', goal_shift]
          · have hstep : fenceStep ⟨true, fm⟩ x = ⟨true, fm⟩ := by
              unfold fenceStep; rw [hm]; simp [h2]
            rw [hstep] at hclosed' hopen'
            simp only [fences_scan, hm]
            simp only [show ((⟨true, fm, oat⟩ : FenceAcc).in_fence = false) = False by simp,
              if_false, if_neg (show ¬closesFence marker
                (⟨true, fm, oat⟩ : FenceAcc).fence_marker = true from h2)]
            rw [ih true fm oat (idx + 1) k hk hclosed' hopen', goal_shift]

/-- C8: the fence check reports a violation iff the fence state is still
open at end of document, and in that case the single violation carries the
1-based line number of the opening marker of the fence that is open at
document end (the last line `i` before which the state is closed and after
which it stays open). -/
theorem claim_C8 :
    (∀ doc : List (List Char),
      lint_file_fences doc = [] ↔ (stateAfter fenceInit doc).in_fence = false) ∧
    (∀ (doc : List (List Char)) (i : Nat),
      i < doc.length →
      (stateAfter fenceInit (doc.take i)).in_fence = false →
      (∀ j, j ≤ doc.length → i < j →
        (stateAfter fenceInit (doc.take j)).in_fence = true) →
      lint_file_fences doc = [.unclosed (i + 1)]) := by
  constructor
  · intro doc
    unfold lint_file_fences
    have hst := (fences_scan_state doc false [] 0 1).1
    by_cases h : (fences_scan ⟨false, [], 0⟩ 1 doc).in_fence = true
    · rw [if_pos h]
      rw [h] at hst
      constructor
      · intro habs; exact absurd habs (by simp)
      · intro hc
        rw [show stateAfter ⟨false, []⟩ doc = stateAfter fenceInit doc from rfl] at hst
        rw [hc] at hst
        exact (Bool.false_ne_true hst.symm).elim
    · rw [if_neg h]
      have hf : (fences_scan ⟨false, [], 0⟩ 1 doc).in_fence = false := by
        revert h; cases (fences_scan ⟨false, [], 0⟩ 1 doc).in_fence <;> simp
      rw [hf] at hst
      exact ⟨fun _ => hst.symm, fun _ => rfl⟩
  · intro doc i hi hclosed hopen
    have hoat := fences_scan_oat doc false [] 0 1 i hi hclosed hopen
    have hst := (fences_scan_state doc false [] 0 1).1
    have hfin : (stateAfter fenceInit doc).in_fence = true := by
      have := hopen doc.length (Nat.le_refl _) hi
      rwa [List.take_length] at this
    rw [show stateAfter ⟨false, []⟩ doc = stateAfter fenceInit doc from rfl, hfin] at hst
    unfold lint_file_fences
    rw [if_pos hst, hoat, Nat.add_comm]

/-- C8 witness: in a three-line document whose second line opens a fence
that is never closed, the single violation carries line number 2; a document
whose fences all close yields no violation. -/
theorem claim_C8_witness :
    (1 < 3 ∧ lint_file_fences [chars "a", chars "```", chars "b"] = [.unclosed 2]) ∧
    lint_file_fences [chars "```", chars "x", chars "```"] = [] :=
  ⟨⟨by decide,
    claim_C8.2 [chars "a", chars "```", chars "b"] 1 (by decide) (by decide)
      (by decide)⟩,
   (claim_C8.1 [chars "```", chars "x", chars "```"]).mpr (by decide)⟩

/- ------------------------------------------------------------------ -/
/- C3                                                                  -/
/- ------------------------------------------------------------------ -/

/-- The ten required headings with "Core Patterns" and "Canonical
Definitions" swapped relative to `REQUIRED_HEADINGS`, all others in
canonical order.  As a document (one heading per line) it extracts to
itself. -/
def swappedHeadings : List (List Char) :=
  [chars "## Agent Contract",
   chars "## TL;DR",
   chars "## Core Patterns",
   chars "## Canonical Definitions",
   chars "## Decision Checklist",
   chars "## Anti-patterns / Pitfalls",
   chars "## Evaluation",
   chars "## Update Log",
   chars "## See Also",
   chars "## References"]

/-- C3 counterexample: on the swapped document the single order violation
cites "Core Patterns", not "Canonical Definitions" (the scan in canonical
order sees Canonical Definitions at document position 3, strictly after
TL;DR at 1, so its check passes; the first non-increasing index is Core
Patterns' position 2). -/
theorem claim_C3_counterexample :
    lint_section_order swappedHeadings false = [.order (chars "## Core Patterns")] ∧
    SOViolation.order (chars "## Core Patterns") ≠
      SOViolation.order (chars "## Canonical Definitions") := by
  decide

theorem lint_so_core_swapped (text : List Char) :
    lint_so_core swappedHeadings text false = [.order (chars "## Core Patterns")] := by
  rfl

/-- C3 (amended): for any document (not named SSOT.md) whose extracted
`##`-headings are exactly the ten required headings with "Core Patterns" and
"Canonical Definitions" swapped, the section-order linter produces exactly
one order-violation message, and that message cites "Core Patterns". -/
theorem claim_C3 (lines : List (List Char))
    (h : extract_headings_h2 lines = swappedHeadings) :
    lint_section_order lines false = [.order (chars "## Core Patterns")] := by
  unfold lint_section_order
  rw [h]
  exact lint_so_core_swapped (joinLines lines)

/-- C3 witness: the swapped heading list, as a document, satisfies the
hypothesis and yields the Core Patterns violation. -/
theorem claim_C3_witness :
    extract_headings_h2 swappedHeadings = swappedHeadings ∧
    lint_section_order swappedHeadings false = [.order (chars "## Core Patterns")] :=
  ⟨by decide, claim_C3 swappedHeadings (by decide)⟩

/- ------------------------------------------------------------------ -/
/- C5                                                                  -/
/- ------------------------------------------------------------------ -/

/-- A document whose body uses exactly `{R1, R2}` and whose References
section defines exactly `{R1, R2}`, each definition with URL and
retrieval/access date. -/
def refDoc : List (List Char) :=
  [chars "Intro [R1] and [R2].",
   chars "## References",
   chars "- [R1] A. https://example.com/a (retrieved 2025-01-01)",
   chars "- [R2] B. https://example.com/b (accessed 2025-01-02)"]

/-- Document `refDoc` with only the R2 definition removed. -/
def refDocMissingR2 : List (List Char) :=
  [chars "Intro [R1] and [R2].",
   chars "## References",
   chars "- [R1] A. https://example.com/a (retrieved 2025-01-01)"]

/-- Document `refDoc` with an additional unused, well-formed R3 definition. -/
def refDocUnusedR3 : List (List Char) :=
  refDoc ++ [chars "- [R3] C. https://example.com/c (retrieved 2025-01-03)"]

/-- C5: the round-trip document lints clean; removing the R2 definition
yields exactly one undefined-references violation naming R2; instead adding
an unused R3 definition yields exactly one unused violation naming R3. -/
theorem claim_C5 :
    ref_lint refDoc = [] ∧
    ref_lint refDocMissingR2 = [.undefined [chars "2"]] ∧
    ref_lint refDocUnusedR3 = [.unused [chars "3"]] := by
  decide

/- ------------------------------------------------------------------ -/
/- C9                                                                  -/
/- ------------------------------------------------------------------ -/

/-- A document whose body cites only `[r1]` (lowercase) and whose References
section defines `- [r1] …` with URL and date. -/
def refDocLower : List (List Char) :=
  [chars "Body cites [r1] only.",
   chars "## References",
   chars "- [r1] A. https://example.com/a (retrieved 2025-01-01)"]

/-- C9: definition matching is case-insensitive (`- [r1]` defines ID 1)
while usage matching is case-sensitive (`[r1]` in the body is no usage), so
the document yields exactly one unused violation for R1 and no undefined
violation. -/
theorem claim_C9 :
    defMatch (chars "- [r1] A. https://example.com/a (retrieved 2025-01-01)") =
      some (chars "1") ∧
    findUses (chars "Body cites [r1] only.") = [] ∧
    ref_lint refDocLower = [.unused [chars "1"]] := by
  decide

/- ------------------------------------------------------------------ -/
/- C10                                                                 -/
/- ------------------------------------------------------------------ -/

/-- C10: the date linter recognizes frontmatter only when the document's
very first four characters are `---` and a newline; any other prefix
(including a leading blank line) yields the missing-frontmatter violation,
whatever appears later in the text. -/
theorem claim_C10 (text : List Char) (h : text.take 4 ≠ chars "---\n") :
    check_last_updated_file text = [.missingLastUpdated] := by
  have hb : beginsWith (chars "---\n") text = false := by
    unfold beginsWith
    simp only [decide_eq_false_iff_not]
    exact h
  unfold check_last_updated_file parse_last_updated fmMatch
  rw [hb]
  simp

/-- C10 witness: a single blank line before an otherwise well-formed
frontmatter block with a `last_updated` field still yields the
missing-frontmatter violation. -/
theorem claim_C10_witness :
    check_last_updated_file
      (chars "\n---\nlast_updated: 2025-01-10\n---\n## Update Log\n- 2025-01-10: x\n") =
      [.missingLastUpdated] :=
  claim_C10 _ (by decide)

/- ------------------------------------------------------------------ -/
/- C6                                                                  -/
/- ------------------------------------------------------------------ -/

/-- The first non-blank line of a line list (the line at which the Update
Log scan stops). -/
def firstNonBlank : List (List Char) → Option (List Char)
  | [] => none
  | l :: ls => if pyStrip l = [] then firstNonBlank ls else some l

theorem scanTop_eq_firstNonBlank (after : List (List Char)) (l : List Char)
    (h : firstNonBlank after = some l) :
    scanTop after = if beginsWith (chars "##") l then none else entryMatch l := by
  induction after with
  | nil => simp [firstNonBlank] at h
  | cons x xs ih =>
    by_cases hb : pyStrip x = []
    · rw [firstNonBlank] at h
      rw [if_pos hb] at h
      rw [scanTop, if_pos hb]
      exact ih h
    · rw [firstNonBlank] at h
      rw [if_neg hb] at h
      rw [scanTop, if_neg hb]
      cases h
      rfl

/-- A line starting with `##` never matches the Update Log entry pattern
(the bullet must start, after whitespace, with `-`). -/
theorem entryMatch_none_of_hash (l : List Char)
    (h : beginsWith (chars "##") l = true) : entryMatch l = none := by
  obtain ⟨rest, rfl⟩ : ∃ rest, l = '#' :: '#' :: rest := by
    cases l with
    | nil => simp [beginsWith, chars] at h
    | cons a l2 =>
      cases l2 with
      | nil => simp [beginsWith, chars] at h
      | cons b l3 =>
        have hab : a = '#' ∧ b = '#' := by
          have := of_decide_eq_true h
          simp [chars] at this
          exact ⟨this.1, this.2⟩
        exact ⟨l3, by rw [hab.1, hab.2]⟩
  have hdw : List.dropWhile isPySpace ('#' :: '#' :: rest) = '#' :: '#' :: rest := by
    rw [List.dropWhile_cons]
    simp [isPySpace]
  unfold entryMatch
  rw [hdw]
  rfl

/-- C6: given a frontmatter date `d` and the Update Log's first non-blank
line `l`: when `l` is a bullet carrying date `d'` the linter reports nothing
if `d' = d` and exactly one mismatch carrying both dates otherwise; when `l`
is a heading or fails the bullet-date pattern, the linter reports exactly
the missing-or-invalid Update Log date violation. -/
theorem claim_C6 (text d : List Char) (after : List (List Char)) (l : List Char)
    (hfm : parse_last_updated text = some d)
    (htail : updateLogTail text = some after)
    (hfnb : firstNonBlank after = some l) :
    (∀ d', entryMatch l = some d' →
      check_last_updated_file text = if d' = d then [] else [.mismatch d d']) ∧
    ((beginsWith (chars "##") l = true ∨ entryMatch l = none) →
      check_last_updated_file text = [.missingTopDate]) := by
  have hp : parse_update_log_top_date text = scanTop after := by
    unfold parse_update_log_top_date
    rw [htail]
  have hs := scanTop_eq_firstNonBlank after l hfnb
  constructor
  · intro d' hd'
    have hne : beginsWith (chars "##") l = false := by
      by_cases hh : beginsWith (chars "##") l = true
      · rw [entryMatch_none_of_hash l hh] at hd'
        cases hd'
      · revert hh
        cases beginsWith (chars "##") l <;> simp
    unfold check_last_updated_file
    rw [hfm, hp, hs, hne]
    simp only [Bool.false_eq_true, if_false, hd']
    by_cases hdd : d' = d
    · simp [hdd]
    · simp [hdd, Ne.symm]
  · intro hcase
    unfold check_last_updated_file
    rw [hfm, hp, hs]
    rcases hcase with hh | hn
    · rw [hh]
      simp
    · by_cases hh : beginsWith (chars "##") l = true
      · rw [hh]; simp
      · have hf : beginsWith (chars "##") l = false := by
          revert hh; cases beginsWith (chars "##") l <;> simp
        rw [hf]
        simp only [Bool.false_eq_true, if_false, hn]

/-- C6 witness: a document whose frontmatter date matches the first Update
Log bullet lints clean; with a different frontmatter date it reports the
mismatch with both dates; with a heading as first non-blank line it reports
the missing-or-invalid violation. -/
theorem claim_C6_witness :
    check_last_updated_file
      (chars "---\nlast_updated: 2025-01-10\n---\n## Update Log\n\n- **2025-01-10**: x\n")
      = [] ∧
    check_last_updated_file
      (chars "---\nlast_updated: 2025-01-09\n---\n## Update Log\n\n- **2025-01-10**: x\n")
      = [.mismatch (chars "2025-01-09") (chars "2025-01-10")] ∧
    check_last_updated_file
      (chars "---\nlast_updated: 2025-01-10\n---\n## Update Log\n## See Also\n")
      = [.missingTopDate] := by
  refine ⟨?_, ?_, ?_⟩
  · have := (claim_C6
      (chars "---\nlast_updated: 2025-01-10\n---\n## Update Log\n\n- **2025-01-10**: x\n")
      (chars "2025-01-10") [chars "", chars "- **2025-01-10**: x"]
      (chars "- **2025-01-10**: x") (by decide) (by decide) (by decide)).1
      (chars "2025-01-10") (by decide)
    simpa using this
  · have := (claim_C6
      (chars "---\nlast_updated: 2025-01-09\n---\n## Update Log\n\n- **2025-01-10**: x\n")
      (chars "2025-01-09") [chars "", chars "- **2025-01-10**: x"]
      (chars "- **2025-01-10**: x") (by decide) (by decide) (by decide)).1
      (chars "2025-01-10") (by decide)
    rw [this]
    decide
  · exact (claim_C6
      (chars "---\nlast_updated: 2025-01-10\n---\n## Update Log\n## See Also\n")
      (chars "2025-01-10") [chars "## See Also"] (chars "## See Also")
      (by decide) (by decide) (by decide)).2 (Or.inl (by decide))

/- ------------------------------------------------------------------ -/
/- C7                                                                  -/
/- ------------------------------------------------------------------ -/

/-- A target with a recognized external scheme is skipped before
resolution. -/
theorem classify_external_none (raw : List Char)
    (h : isExternal (normTarget raw) = true) : classifyTarget raw = none := by
  unfold classifyTarget
  by_cases h0 : normTarget raw = [] ∨ beginsWith (chars "#") (normTarget raw) = true
  · simp [h0]
  · simp [h0, h]

/-- When classification hands a target on to resolution, the reported target
is the normalized one and is neither external nor a pure fragment. -/
theorem classify_some_target (raw : List Char) (tp : List Char × List Char)
    (h : classifyTarget raw = some tp) :
    tp.1 = normTarget raw ∧ isExternal tp.1 = false ∧
      beginsWith (chars "#") tp.1 = false := by
  unfold classifyTarget at h
  dsimp only [] at h
  split at h
  · cases h
  · next h0 =>
    split at h
    · cases h
    · next h1 =>
      split at h
      · cases h
      · split at h
        · cases h
        · cases h
          push_neg at h0
          refine ⟨rfl, ?_, ?_⟩
          · revert h1
            cases isExternal (normTarget raw) <;> simp
          · have := h0.2
            revert this
            cases beginsWith (chars "#") (normTarget raw) <;> simp

theorem foldl_segStep_normal (cwd : List (List Char))
    (h : ∀ s ∈ cwd, s ≠ [] ∧ s ≠ chars "." ∧ s ≠ chars "..") :
    ∀ acc, cwd.foldl segStep acc = acc ++ cwd := by
  induction cwd with
  | nil => intro acc; simp
  | cons s rest ih =>
    intro acc
    have hs := h s (List.mem_cons_self s rest)
    rw [List.foldl_cons]
    rw [show segStep acc s = acc ++ [s] by
      unfold segStep
      rw [if_neg (by simp [hs.1, hs.2.1]), if_neg hs.2.2]]
    rw [ih (fun t ht => h t (List.mem_cons_of_mem s ht)) (acc ++ [s])]
    simp

/-- C7: (a) no reported broken link has an external-scheme target; (b) a
pure-fragment target is never handed to filesystem resolution; (c) a
relative link `./missing.md` in `docs/a.md` whose resolution below the
working directory does not exist is reported with the written target and the
resolved absolute path `cwd/docs/missing.md`. -/
theorem claim_C7 :
    (∀ (fs : List (List Char) → Bool) (cwd : List (List Char)) (name : List Char)
       (parent : List (List Char)) (lines : List (List Char)) (b : BrokenLink),
       b ∈ check_links_doc fs cwd name parent lines → isExternal b.target = false) ∧
    (∀ raw, beginsWith (chars "#") (normTarget raw) = true → classifyTarget raw = none) ∧
    (∀ (fs : List (List Char) → Bool) (cwd : List (List Char)),
       (∀ s ∈ cwd, s ≠ [] ∧ s ≠ chars "." ∧ s ≠ chars "..") →
       fs (cwd ++ [chars "docs", chars "missing.md"]) = false →
       check_links_doc fs cwd (chars "docs/a.md") [chars "docs"]
         [chars "See [x](./missing.md)."] =
         [⟨chars "docs/a.md", chars "./missing.md",
           cwd ++ [chars "docs", chars "missing.md"]⟩]) := by
  refine ⟨?_, ?_, ?_⟩
  · intro fs cwd name parent lines b hb
    unfold check_links_doc at hb
    obtain ⟨raw, hmem, hf⟩ := List.mem_filterMap.mp hb
    cases hcl : classifyTarget raw with
    | none => rw [hcl] at hf; cases hf
    | some tp =>
      rw [hcl] at hf
      dsimp only [] at hf
      obtain ⟨ht, hext, _⟩ := classify_some_target raw tp hcl
      cases hfs : fs (resolveSegs cwd parent tp.2) with
      | true =>
        rw [hfs] at hf
        simp at hf
      | false =>
        rw [hfs] at hf
        simp only [Bool.false_eq_true, if_false] at hf
        cases hf
        exact hext
  · intro raw h
    unfold classifyTarget
    simp [h]
  · intro fs cwd hnorm hfs
    have hres : resolveSegs cwd [chars "docs"] (chars "./missing.md") =
        cwd ++ [chars "docs", chars "missing.md"] := by
      unfold resolveSegs normSegs
      rw [show splitSegs (chars "./missing.md") = [chars ".", chars "missing.md"] from rfl]
      rw [List.append_assoc, List.foldl_append]
      rw [foldl_segStep_normal cwd hnorm []]
      rw [List.nil_append]
      rw [show List.foldl segStep cwd
          ([chars "docs"] ++ [chars ".", chars "missing.md"]) =
        segStep (segStep (segStep cwd (chars "docs")) (chars ".")) (chars "missing.md")
        from rfl]
      rw [show segStep cwd (chars "docs") = cwd ++ [chars "docs"] by
        unfold segStep; rw [if_neg (by decide), if_neg (by decide)]]
      rw [show ∀ acc : List (List Char), segStep acc (chars ".") = acc by
        intro acc; unfold segStep; rw [if_pos (by decide)]]
      rw [show ∀ acc : List (List Char), segStep acc (chars "missing.md") = acc ++ [chars "missing.md"] by
        intro acc; unfold segStep; rw [if_neg (by decide), if_neg (by decide)]]
      simp
    have hfs' : fs (resolveSegs cwd [chars "docs"] (chars "./missing.md")) = false := by
      rw [hres]; exact hfs
    unfold check_links_doc
    rw [show findLinks (joinLines (strip_fenced_code [chars "See [x](./missing.md)."])) =
      [chars "./missing.md"] from rfl]
    simp only [List.filterMap_cons, List.filterMap_nil,
      show classifyTarget (chars "./missing.md") =
        some (chars "./missing.md", chars "./missing.md") from rfl,
      hfs', hres, Bool.false_eq_true, if_false]
    rw [hfs]
    rfl

/-- C7 witness: on a filesystem oracle where nothing exists, the external
link never appears among the broken reports, the fragment target is
classified away, and the relative link is reported with its resolved
absolute path. -/
theorem claim_C7_witness :
    isExternal (BrokenLink.target ⟨chars "docs/a.md", chars "./missing.md",
      [chars "home", chars "docs", chars "missing.md"]⟩) = false ∧
    classifyTarget (chars "#anchor") = none ∧
    check_links_doc (fun _ => false) [chars "home"] (chars "docs/a.md")
      [chars "docs"] [chars "See [x](./missing.md)."] =
      [⟨chars "docs/a.md", chars "./missing.md",
        [chars "home", chars "docs", chars "missing.md"]⟩] := by
  refine ⟨?_, ?_, ?_⟩
  · exact claim_C7.1 (fun _ => false) [chars "home"] (chars "docs/a.md")
      [chars "docs"] [chars "See [x](./missing.md)."]
      ⟨chars "docs/a.md", chars "./missing.md",
        [chars "home", chars "docs", chars "missing.md"]⟩ (by decide)
  · exact claim_C7.2.1 (chars "#anchor") (by decide)
  · have := claim_C7.2.2 (fun _ => false) [chars "home"] (by decide) rfl
    simpa using this

/- ------------------------------------------------------------------ -/
/- C4                                                                  -/
/- ------------------------------------------------------------------ -/

theorem lowerChar_not_upper (c : Char) :
    ¬(65 ≤ (lowerChar c).toNat ∧ (lowerChar c).toNat ≤ 90) := by
  unfold lowerChar
  split
  · next h =>
    obtain ⟨h1, h2⟩ := h
    interval_cases h : c.toNat <;> decide
  · next h => exact h

theorem lowerChar_idem (c : Char) : lowerChar (lowerChar c) = lowerChar c := by
  conv_lhs => rw [lowerChar]
  rw [if_neg (lowerChar_not_upper c)]

theorem word_not_space (c : Char) (h : isWordChar c = true) : isPySpace c = false := by
  cases hs : isPySpace c
  · rfl
  · exfalso
    have h6 : c = ' ' ∨ c = '\t' ∨ c = '\n' ∨ c = '\r' ∨ c = '\x0b' ∨ c = '\x0c' := by
      unfold isPySpace at hs
      simp only [Bool.or_eq_true, decide_eq_true_eq] at hs
      tauto
    rcases h6 with rfl | rfl | rfl | rfl | rfl | rfl <;> exact absurd h (by decide)

/-- A character of a normal slug: a lowercase-stable word character or a
hyphen. -/
def GoodChar (c : Char) : Prop :=
  (isWordChar c = true ∧ lowerChar c = c) ∨ c = '-'

theorem GoodChar.not_space {c : Char} (h : GoodChar c) : isPySpace c = false := by
  rcases h with ⟨hw, _⟩ | rfl
  · exact word_not_space c hw
  · decide

theorem GoodChar.lower_fix {c : Char} (h : GoodChar c) : lowerChar c = c := by
  rcases h with ⟨_, hl⟩ | rfl
  · exact hl
  · decide

theorem GoodChar.keep {c : Char} (h : GoodChar c) : keepChar c = true := by
  rcases h with ⟨hw, _⟩ | rfl
  · simp [keepChar, hw]
  · decide

/-- no two adjacent hyphens -/
def noDD : List Char → Bool
  | c1 :: c2 :: rest => !(c1 = '-' && c2 = '-') && noDD (c2 :: rest)
  | _ => true

theorem noDD_cons (x : Char) (m : List Char) :
    noDD (x :: m) = true ↔
      (∀ d, m.head? = some d → ¬(x = '-' ∧ d = '-')) ∧ noDD m = true := by
  cases m with
  | nil => simp [noDD]
  | cons d r =>
    rw [show noDD (x :: d :: r) = (!(x = '-' && d = '-') && noDD (d :: r)) from rfl]
    simp only [Bool.and_eq_true, Bool.not_eq_true', Bool.and_eq_false_iff]
    constructor
    · rintro ⟨h1, h2⟩
      refine ⟨?_, h2⟩
      intro e he hxe
      cases he
      rcases h1 with h1 | h1 <;> simp [hxe.1, hxe.2] at h1
    · rintro ⟨h1, h2⟩
      refine ⟨?_, h2⟩
      by_cases hx : x = '-'
      · by_cases hd : d = '-'
        · exact absurd ⟨hx, hd⟩ (h1 d rfl)
        · right; simpa using hd
      · left; simpa using hx

/- dropWhile / dropTrailing helper lemmas -/

theorem dropWhile_all_false (p : Char → Bool) (l : List Char)
    (h : ∀ c ∈ l, p c = false) : l.dropWhile p = l := by
  cases l with
  | nil => rfl
  | cons c r =>
    rw [List.dropWhile_cons, h c (List.mem_cons_self c r)]
    simp

theorem dropTrailing_all_false (p : Char → Bool) (l : List Char)
    (h : ∀ c ∈ l, p c = false) : dropTrailing p l = l := by
  induction l with
  | nil => rfl
  | cons c r ih =>
    rw [dropTrailing]
    rw [ih (fun d hd => h d (List.mem_cons_of_mem c hd))]
    rw [if_neg (by simp [h c (List.mem_cons_self c r)])]

theorem dropWhile_eq_self_of_head (p : Char → Bool) (l : List Char)
    (h : ∀ c, l.head? = some c → p c = false) : l.dropWhile p = l := by
  cases l with
  | nil => rfl
  | cons c r =>
    rw [List.dropWhile_cons, h c rfl]
    simp

theorem dropTrailing_eq_self_of_getLast (p : Char → Bool) (l : List Char)
    (h : ∀ c, l.getLast? = some c → p c = false) : dropTrailing p l = l := by
  induction l with
  | nil => rfl
  | cons c r ih =>
    cases r with
    | nil =>
      have hc : p c = false := h c (List.getLast?_singleton c)
      simp [dropTrailing, hc]
    | cons d r2 =>
      have hr : dropTrailing p (d :: r2) = d :: r2 := by
        refine ih (fun e he => h e ?_)
        rwa [List.getLast?_cons_cons]
      rw [dropTrailing, hr]
      rw [if_neg (by simp)]

theorem dropWhile_head_not (p : Char → Bool) (l : List Char) (c : Char)
    (h : (l.dropWhile p).head? = some c) : p c = false := by
  induction l with
  | nil => cases h
  | cons d r ih =>
    rw [List.dropWhile_cons] at h
    by_cases hd : p d = true
    · rw [if_pos hd] at h
      exact ih h
    · rw [if_neg hd] at h
      cases h
      revert hd
      cases p c <;> simp

theorem dropTrailing_getLast_not (p : Char → Bool) (l : List Char) (c : Char)
    (h : (dropTrailing p l).getLast? = some c) : p c = false := by
  induction l with
  | nil => cases h
  | cons d r ih =>
    rw [dropTrailing] at h
    by_cases hcond : dropTrailing p r = [] ∧ p d = true
    · rw [if_pos hcond] at h
      cases h
    · rw [if_neg hcond] at h
      cases hr : dropTrailing p r with
      | nil =>
        rw [hr] at h
        rw [List.getLast?_singleton] at h
        cases h
        rw [hr] at hcond
        revert hcond
        cases p c <;> simp
      | cons e r2 =>
        rw [hr] at h
        rw [List.getLast?_cons_cons] at h
        rw [← hr] at h
        exact ih h

theorem dropTrailing_head (p : Char → Bool) (l : List Char)
    (hne : dropTrailing p l ≠ []) : (dropTrailing p l).head? = l.head? := by
  cases l with
  | nil => rfl
  | cons c r =>
    rw [dropTrailing]
    by_cases hcond : dropTrailing p r = [] ∧ p c = true
    · rw [dropTrailing] at hne
      rw [if_pos hcond] at hne
      exact absurd rfl hne
    · rw [if_neg hcond]
      rfl

theorem mem_dropTrailing (p : Char → Bool) (l : List Char) (c : Char)
    (h : c ∈ dropTrailing p l) : c ∈ l := by
  induction l with
  | nil => cases h
  | cons d r ih =>
    rw [dropTrailing] at h
    by_cases hcond : dropTrailing p r = [] ∧ p d = true
    · rw [if_pos hcond] at h
      cases h
    · rw [if_neg hcond] at h
      rcases List.mem_cons.mp h with rfl | h2
      · exact List.mem_cons_self _ _
      · exact List.mem_cons_of_mem _ (ih h2)

/- subSpaces / collapseDash lemmas -/

theorem subSpacesAux_id (l : List Char) :
    (∀ c ∈ l, isPySpace c = false) → ∀ b, subSpacesAux b l = l := by
  induction l with
  | nil => intro _ b; rfl
  | cons c r ih =>
    intro h b
    rw [subSpacesAux]
    rw [h c (List.mem_cons_self c r)]
    simp only [Bool.false_eq_true, if_false]
    rw [ih (fun d hd => h d (List.mem_cons_of_mem c hd)) false]

theorem mem_subSpacesAux (l : List Char) :
    ∀ (b : Bool) (c : Char), c ∈ subSpacesAux b l →
      c = '-' ∨ (c ∈ l ∧ isPySpace c = false) := by
  induction l with
  | nil => intro b c h; cases h
  | cons d r ih =>
    intro b c h
    rw [subSpacesAux] at h
    by_cases hd : isPySpace d = true
    · rw [if_pos hd] at h
      cases b with
      | true =>
        rcases ih true c h with h1 | ⟨h1, h2⟩
        · exact Or.inl h1
        · exact Or.inr ⟨List.mem_cons_of_mem d h1, h2⟩
      | false =>
        rcases List.mem_cons.mp h with rfl | h2
        · exact Or.inl rfl
        · rcases ih true c h2 with h1 | ⟨h1, h3⟩
          · exact Or.inl h1
          · exact Or.inr ⟨List.mem_cons_of_mem d h1, h3⟩
    · rw [if_neg hd] at h
      rcases List.mem_cons.mp h with rfl | h2
      · right
        refine ⟨List.mem_cons_self c r, ?_⟩
        revert hd
        cases isPySpace c <;> simp
      · rcases ih false c h2 with h1 | ⟨h1, h3⟩
        · exact Or.inl h1
        · exact Or.inr ⟨List.mem_cons_of_mem d h1, h3⟩

theorem mem_collapseDashAux (l : List Char) :
    ∀ (b : Bool) (c : Char), c ∈ collapseDashAux b l → c ∈ l := by
  induction l with
  | nil => intro b c h; cases h
  | cons d r ih =>
    intro b c h
    rw [collapseDashAux] at h
    by_cases hd : d = '-'
    · rw [if_pos hd] at h
      cases b with
      | true => exact List.mem_cons_of_mem d (ih true c h)
      | false =>
        rcases List.mem_cons.mp h with rfl | h2
        · rw [hd]; exact List.mem_cons_self _ _
        · exact List.mem_cons_of_mem d (ih true c h2)
    · rw [if_neg hd] at h
      rcases List.mem_cons.mp h with rfl | h2
      · exact List.mem_cons_self _ _
      · exact List.mem_cons_of_mem d (ih false c h2)

theorem collapseDashAux_true_head (l : List Char) :
    ∀ c, (collapseDashAux true l).head? = some c → c ≠ '-' := by
  induction l with
  | nil => intro c h; cases h
  | cons d r ih =>
    intro c h
    rw [collapseDashAux] at h
    by_cases hd : d = '-'
    · rw [if_pos hd, if_pos rfl] at h
      exact ih c h
    · rw [if_neg hd] at h
      cases h
      exact hd

theorem noDD_collapseDashAux (l : List Char) :
    ∀ b, noDD (collapseDashAux b l) = true := by
  induction l with
  | nil => intro b; rfl
  | cons d r ih =>
    intro b
    rw [collapseDashAux]
    by_cases hd : d = '-'
    · rw [if_pos hd]
      cases b with
      | true => exact ih true
      | false =>
        simp only [Bool.false_eq_true, if_false]
        rw [noDD_cons]
        refine ⟨?_, ih true⟩
        intro e he hde
        exact collapseDashAux_true_head r e he hde.2
    · rw [if_neg hd]
      rw [noDD_cons]
      refine ⟨?_, ih false⟩
      intro e _ hde
      exact hd hde.1

theorem collapseDashAux_id (l : List Char) (h : noDD l = true) :
    collapseDashAux false l = l ∧
    ((∀ c, l.head? = some c → c ≠ '-') → collapseDashAux true l = l) := by
  induction l with
  | nil => exact ⟨rfl, fun _ => rfl⟩
  | cons d r ih =>
    have hdr := (noDD_cons d r).mp h
    obtain ⟨ihf, iht⟩ := ih hdr.2
    constructor
    · rw [collapseDashAux]
      by_cases hd : d = '-'
      · rw [if_pos hd]
        simp only [Bool.false_eq_true, if_false]
        rw [iht]
        · rw [hd]
        · intro c hc hcd
          exact (hdr.1 c hc) ⟨hd, hcd⟩
      · rw [if_neg hd, ihf]
    · intro hhead
      rw [collapseDashAux]
      have hd : ¬d = '-' := hhead d rfl
      rw [if_neg hd, ihf]

/- noDD preservation -/

theorem noDD_tail (x : Char) (m : List Char) (h : noDD (x :: m) = true) :
    noDD m = true := ((noDD_cons x m).mp h).2

theorem noDD_dropWhile (p : Char → Bool) (l : List Char) (h : noDD l = true) :
    noDD (l.dropWhile p) = true := by
  induction l with
  | nil => exact h
  | cons d r ih =>
    rw [List.dropWhile_cons]
    by_cases hd : p d = true
    · rw [if_pos hd]
      exact ih (noDD_tail d r h)
    · rw [if_neg hd]
      exact h

theorem noDD_dropTrailing (p : Char → Bool) (l : List Char) (h : noDD l = true) :
    noDD (dropTrailing p l) = true := by
  induction l with
  | nil => exact h
  | cons d r ih =>
    rw [dropTrailing]
    by_cases hcond : dropTrailing p r = [] ∧ p d = true
    · rw [if_pos hcond]; rfl
    · rw [if_neg hcond]
      rw [noDD_cons]
      have hr := ih (noDD_tail d r h)
      refine ⟨?_, hr⟩
      intro e he hde
      have hne : dropTrailing p r ≠ [] := by
        intro habs
        rw [habs] at he
        cases he
      rw [dropTrailing_head p r hne] at he
      exact ((noDD_cons d r).mp h).1 e he hde

/-- The shape of every slugify output: lowercase-stable word characters and
single hyphens, starting and ending with a word character. -/
def SlugNormal (l : List Char) : Prop :=
  (∀ c ∈ l, GoodChar c) ∧ noDD l = true ∧
  (∀ c, l.head? = some c → c ≠ '-') ∧ (∀ c, l.getLast? = some c → c ≠ '-')

theorem slugify_normal (s : List Char) : SlugNormal (slugify s) := by
  unfold slugify
  set s2 := ((pyStrip s).map lowerChar).filter keepChar with hs2
  have hmem : ∀ c ∈ stripDashes (collapseDash (subSpaces s2)), GoodChar c := by
    intro c hc
    unfold stripDashes at hc
    have hc1 : c ∈ collapseDash (subSpaces s2) :=
      (List.dropWhile_sublist _).subset
        (mem_dropTrailing _ _ c hc)
    have hc2 : c ∈ subSpaces s2 := mem_collapseDashAux _ _ c hc1
    rcases mem_subSpacesAux s2 false c hc2 with rfl | ⟨hc3, hnsp⟩
    · exact Or.inr rfl
    · rw [hs2] at hc3
      obtain ⟨hc4, hkeep⟩ := List.mem_filter.mp hc3
      obtain ⟨c', _, rfl⟩ := List.mem_map.mp hc4
      unfold keepChar at hkeep
      simp only [Bool.or_eq_true, decide_eq_true_eq] at hkeep
      rcases hkeep with (hw | hsp) | hdash
      · exact Or.inl ⟨hw, lowerChar_idem c'⟩
      · rw [hsp] at hnsp
        cases hnsp
      · exact Or.inr hdash
  refine ⟨hmem, ?_, ?_, ?_⟩
  · exact noDD_dropTrailing _ _
      (noDD_dropWhile _ _ (noDD_collapseDashAux (subSpaces s2) false))
  · intro c hc
    have hne : dropTrailing (fun c => c = '-')
        ((collapseDash (subSpaces s2)).dropWhile (fun c => c = '-')) ≠ [] := by
      intro habs
      unfold stripDashes at hc
      rw [habs] at hc
      cases hc
    unfold stripDashes at hc
    rw [dropTrailing_head _ _ hne] at hc
    have := dropWhile_head_not _ _ c hc
    simpa using this
  · intro c hc
    unfold stripDashes at hc
    have := dropTrailing_getLast_not _ _ c hc
    simpa using this

theorem map_id_of_all {f : Char → Char} (l : List Char)
    (h : ∀ c ∈ l, f c = c) : l.map f = l := by
  induction l with
  | nil => rfl
  | cons c r ih =>
    rw [List.map_cons, h c (List.mem_cons_self c r),
      ih (fun d hd => h d (List.mem_cons_of_mem c hd))]

theorem slugify_id_of_normal (l : List Char) (h : SlugNormal l) : slugify l = l := by
  obtain ⟨hmem, hdd, hhead, hlast⟩ := h
  have hnsp : ∀ c ∈ l, isPySpace c = false := fun c hc => (hmem c hc).not_space
  have h1 : pyStrip l = l := by
    unfold pyStrip
    rw [dropWhile_all_false _ _ hnsp, dropTrailing_all_false _ _ hnsp]
  have h2 : l.map lowerChar = l :=
    map_id_of_all l (fun c hc => (hmem c hc).lower_fix)
  have h3 : l.filter keepChar = l :=
    List.filter_eq_self.mpr (fun c hc => (hmem c hc).keep)
  have h4 : subSpaces l = l := subSpacesAux_id l hnsp false
  have h5 : collapseDash l = l := (collapseDashAux_id l hdd).1
  have h6 : stripDashes l = l := by
    unfold stripDashes
    rw [dropWhile_eq_self_of_head _ _ (fun c hc => by
      simpa using hhead c hc)]
    rw [dropTrailing_eq_self_of_getLast _ _ (fun c hc => by
      simpa using hlast c hc)]
  unfold slugify
  rw [h1, h2, h3, h4, h5, h6]

theorem slugify_idem (s : List Char) : slugify (slugify s) = slugify s :=
  slugify_id_of_normal _ (slugify_normal s)

/- anchor assignment: dict and counting lemmas -/

theorem dictGet_dictSet_same (d : List (List Char × Nat)) (k : List Char) (v : Nat) :
    dictGet (dictSet d k v) k = some v := by
  induction d with
  | nil => simp [dictSet, dictGet]
  | cons kv rest ih =>
    rw [dictSet]
    by_cases hk : kv.1 = k
    · rw [if_pos hk]
      simp [dictGet]
    · rw [if_neg hk]
      rw [show dictGet ((kv.1, kv.2) :: dictSet rest k v) k =
        if kv.1 = k then some kv.2 else dictGet (dictSet rest k v) k from rfl]
      rw [if_neg hk]
      exact ih

theorem dictGet_dictSet_other (d : List (List Char × Nat)) (k k' : List Char) (v : Nat)
    (h : k' ≠ k) : dictGet (dictSet d k v) k' = dictGet d k' := by
  induction d with
  | nil =>
    rw [show dictSet [] k v = [(k, v)] from rfl]
    rw [show dictGet [(k, v)] k' = if k = k' then some v else dictGet [] k' from rfl]
    rw [if_neg (Ne.symm h)]
  | cons kv rest ih =>
    rw [dictSet]
    by_cases hk : kv.1 = k
    · rw [if_pos hk]
      rw [show dictGet ((k, v) :: rest) k' = if k = k' then some v else dictGet rest k'
        from rfl]
      rw [if_neg (Ne.symm h)]
      rw [show dictGet (kv :: rest) k' =
        if kv.1 = k' then some kv.2 else dictGet rest k' from rfl]
      rw [if_neg (by rw [hk]; exact Ne.symm h)]
    · rw [if_neg hk]
      rw [show dictGet ((kv.1, kv.2) :: dictSet rest k v) k' =
        if kv.1 = k' then some kv.2 else dictGet (dictSet rest k v) k' from rfl]
      rw [show dictGet (kv :: rest) k' =
        if kv.1 = k' then some kv.2 else dictGet rest k' from rfl]
      by_cases hk' : kv.1 = k'
      · rw [if_pos hk', if_pos hk']
      · rw [if_neg hk', if_neg hk', ih]

theorem countOcc_append (a b : List (List Char)) (k : List Char) :
    countOcc (a ++ b) k = countOcc a k + countOcc b k := by
  induction a with
  | nil => simp [countOcc]
  | cons x xs ih =>
    rw [List.cons_append, countOcc, countOcc, ih]
    omega

theorem getD_append_cons (pre : List (List Char)) (h : List Char)
    (rest : List (List Char)) :
    (pre ++ h :: rest).getD pre.length [] = h := by
  induction pre with
  | nil => rfl
  | cons p ps ih =>
    rw [List.cons_append, List.length_cons]
    rw [show (p :: (ps ++ h :: rest)).getD (ps.length + 1) [] =
      (ps ++ h :: rest).getD ps.length [] from rfl]
    exact ih

theorem build_anchor_aux_cons_none (counts : List (List Char × Nat))
    (h : List Char) (hs : List (List Char))
    (hn : dictGet counts (slugify h) = none) :
    build_anchor_aux counts (h :: hs) =
      ('#' :: slugify h) :: build_anchor_aux (dictSet counts (slugify h) 0) hs := by
  simp only [build_anchor_aux, hn]

theorem build_anchor_aux_cons_some (counts : List (List Char × Nat))
    (h : List Char) (hs : List (List Char)) (n : Nat)
    (hn : dictGet counts (slugify h) = some n) :
    build_anchor_aux counts (h :: hs) =
      ('#' :: (slugify h ++ '-' :: natDigits (n + 1))) ::
        build_anchor_aux (dictSet counts (slugify h) (n + 1)) hs := by
  simp only [build_anchor_aux, hn]

/-- The build loop, related to the specification `anchorSpecAt`: `counts`
maps each base slug present in the processed prefix `pre` to its occurrence
count minus one. -/
theorem build_anchor_aux_spec (hs : List (List Char)) :
    ∀ (pre : List (List Char)) (counts : List (List Char × Nat)),
    (∀ b, dictGet counts b =
      if countOcc (pre.map slugify) b = 0 then none
      else some (countOcc (pre.map slugify) b - 1)) →
    build_anchor_aux counts hs =
      (List.range hs.length).map (fun i => anchorSpecAt (pre ++ hs) (pre.length + i)) := by
  induction hs with
  | nil => intro pre counts _; rfl
  | cons h rest ih =>
    intro pre counts hinv
    have hbase := hinv (slugify h)
    have hget : (pre ++ h :: rest).getD (pre.length + 0) [] = h := by
      rw [Nat.add_zero]; exact getD_append_cons pre h rest
    have htake : ((pre ++ h :: rest).take (pre.length + 0)).map slugify =
        pre.map slugify := by
      rw [Nat.add_zero, List.take_left]
    have hshape : pre ++ h :: rest = (pre ++ [h]) ++ rest := by
      rw [List.append_assoc]; rfl
    have hlen1 : (pre ++ [h]).length = pre.length + 1 := by
      rw [List.length_append, List.length_singleton]
    have hinv' : ∀ v, dictGet (dictSet counts (slugify h) v) (slugify h) = some v :=
      fun v => dictGet_dictSet_same counts (slugify h) v
    have hcount' : ∀ b, countOcc ((pre ++ [h]).map slugify) b =
        countOcc (pre.map slugify) b + (if slugify h = b then 1 else 0) := by
      intro b
      rw [List.map_append, countOcc_append]
      rw [show countOcc ([h].map slugify) b = (if slugify h = b then 1 else 0) + 0
        from rfl]
      omega
    have hrhs : (List.range (h :: rest).length).map
          (fun i => anchorSpecAt (pre ++ h :: rest) (pre.length + i)) =
        anchorSpecAt (pre ++ h :: rest) (pre.length + 0) ::
          (List.range rest.length).map
            (fun i => anchorSpecAt ((pre ++ [h]) ++ rest) ((pre ++ [h]).length + i)) := by
      rw [List.length_cons, List.range_succ_eq_map, List.map_cons, List.map_map]
      congr 1
      apply List.map_congr_left
      intro i _
      simp only [Function.comp_apply]
      rw [← hshape, hlen1]
      congr 1
      omega
    rw [hrhs]
    cases hc : countOcc (pre.map slugify) (slugify h) with
    | zero =>
      rw [hc] at hbase
      simp only [if_pos rfl] at hbase
      have hhead : anchorSpecAt (pre ++ h :: rest) (pre.length + 0) =
          '#' :: slugify h := by
        unfold anchorSpecAt
        rw [hget, htake, hc]
        simp
      have hinvnew : ∀ b, dictGet (dictSet counts (slugify h) 0) b =
          if countOcc ((pre ++ [h]).map slugify) b = 0 then none
          else some (countOcc ((pre ++ [h]).map slugify) b - 1) := by
        intro b
        by_cases hb : slugify h = b
        · rw [← hb]
          rw [hinv' 0]
          rw [hcount' (slugify h), hc, if_pos rfl]
          simp
        · rw [dictGet_dictSet_other counts (slugify h) b 0 (Ne.symm hb)]
          rw [hinv b, hcount' b, if_neg hb]
          simp
      rw [build_anchor_aux_cons_none counts h rest hbase, hhead,
        ih (pre ++ [h]) (dictSet counts (slugify h) 0) hinvnew]
    | succ k =>
      rw [hc] at hbase
      simp only [Nat.succ_ne_zero, if_false, Nat.succ_sub_one] at hbase
      have hhead : anchorSpecAt (pre ++ h :: rest) (pre.length + 0) =
          '#' :: (slugify h ++ '-' :: natDigits (k + 1)) := by
        unfold anchorSpecAt
        rw [hget, htake, hc]
        simp
      have hinvnew : ∀ b, dictGet (dictSet counts (slugify h) (k + 1)) b =
          if countOcc ((pre ++ [h]).map slugify) b = 0 then none
          else some (countOcc ((pre ++ [h]).map slugify) b - 1) := by
        intro b
        by_cases hb : slugify h = b
        · rw [← hb]
          rw [hinv' (k + 1)]
          rw [hcount' (slugify h), hc, if_pos rfl]
          simp
        · rw [dictGet_dictSet_other counts (slugify h) b (k + 1) (Ne.symm hb)]
          rw [hinv b, hcount' b, if_neg hb]
          simp
      rw [build_anchor_aux_cons_some counts h rest k hbase, hhead,
        ih (pre ++ [h]) (dictSet counts (slugify h) (k + 1)) hinvnew]

/-- C4: the anchor slugifier is deterministic (a pure function) and
idempotent, and the per-heading anchor assignment of `build_anchor_set`
gives the first occurrence of each base slug the bare slug and the `n`-th
later occurrence of the same base slug the suffixed anchor `base-n`, in
order of occurrence. -/
theorem claim_C4 :
    (∀ s, slugify (slugify s) = slugify s) ∧
    (∀ hs : List (List Char), buildAnchorList hs =
      (List.range hs.length).map (fun i => anchorSpecAt hs i)) := by
  constructor
  · exact slugify_idem
  · intro hs
    unfold buildAnchorList
    rw [build_anchor_aux_spec hs [] [] (fun b => by simp [dictGet, countOcc])]
    simp
